import Mathlib

/-!
Verification development for the LED optical-center detection repository
(`estimacion_centros_opticos`).

The repository's numeric code works oe Python floats; we embed float
arithmetic as real arithmetic (`ℝ`), with `Real.sqrt` for `np.sqrt` /
`np.linalg.norm` and `WithTop ℝ` for quantities that the code sets to
`float('inf')` as a sentinel.  Pixel-level image processing (OpenCV calls
that extract candidate blobs from a frame) is outside the embedding: every
function below starts from the lists of `(x, y, confidence)` candidate
points that those calls produce, exactly where the cited claim sources
start.

Embedded source functions:
  * `etapa2_kalman_parpadeo/led_detector_estricto.py`:
    `StrictLEDDetector._calculate_geometry`  → `calcGeom`
    `StrictLEDDetector._validate_triplet`    → `validT`
    `StrictLEDDetector._find_best_triplet`   → `findBestTriplet`
    `StrictLEDDetector.detect`               → `strictDetect`
    `KalmanTracker`                          → `kinit`, `kupdate`
  * `led_detector_final.py`:
    `RobustLEDDetector._merge_detections`    → `mergeDetections`
    `RobustLEDDetector._assign_led_ids_robust` → `assignLedIds`
    `RobustLEDDetector.detect` (lines 544-556) → `robustDetect`
    `VideoProcessor.calculate_error_statistics` (IQR part) → `percentile`,
    `filterOutliers`, `ledStats`
-/

open scoped Classical

noncomputable section

/-- A candidate point `(x, y, confidence)` as the Python code passes it
around in 3-tuples. -/
abbrev Pt : Type := ℝ × ℝ × ℝ

/-- Euclidean distance between two candidate points, as computed by
`np.sqrt((x1-x2)**2 + (y1-y2)**2)` / `np.linalg.norm(p - q)` oe the
`(x, y)` coordinates. -/
def distPt (p q : Pt) : ℝ := Real.sqrt ((p.1 - q.1) ^ 2 + (p.2.1 - q.2.1) ^ 2)

/-- Stable three-element sort by `x` coordinate: the result of Python's
stable `sorted(triplet, key=lambda p: p[0])` oe the list `[a, b, c]`.
Strict `<` comparisons keep the original order of equal keys, exactly as a
stable sort does. -/
def sort3 (a b c : Pt) : Pt × Pt × Pt :=
  if b.1 < a.1 then
    if c.1 < b.1 then (c, b, a)
    else if c.1 < a.1 then (b, c, a)
    else (b, a, c)
  else
    if c.1 < a.1 then (c, a, b)
    else if c.1 < b.1 then (a, c, b)
    else (a, b, c)

/-- Default detector parameter `max_collinearity_error` (5.0 px). -/
def maxColErr : ℝ := 5

/-- Default detector parameter `spacing_tolerance` (0.10). -/
def spacingTol : ℝ := 0.10

/-- Default detector parameter `min_led_distance` (50 px). -/
def minLedDist : ℝ := 50

/-- Default detector parameter `max_led_distance` (400 px). -/
def maxLedDist : ℝ := 400

/-- `StrictLEDDetector._calculate_geometry`: sorts the triplet by `x`,
computes the two consecutive distances, and returns
`(collinearity_error, spacing_ratio, d12, d23)`.  The two degenerate
branches of the Python code return `(float('inf'), float('inf'), 0, 0)`;
we render the float infinity as `⊤ : WithTop ℝ`. -/
def calcGeom (t : Pt × Pt × Pt) : WithTop ℝ × WithTop ℝ × ℝ × ℝ :=
  let s := sort3 t.1 t.2.1 t.2.2
  let p1 := s.1
  let p2 := s.2.1
  let p3 := s.2.2
  let d12 := distPt p1 p2
  let d23 := distPt p2 p3
  if d12 < 1 ∨ d23 < 1 then (⊤, ⊤, 0, 0)
  else
    let sRat := d12 / d23
    let lineLen := distPt p1 p3
    if lineLen < 1 then (⊤, ⊤, 0, 0)
    else
      -- projection of p2 onto the line p1-p3 (np.dot(p2-p1, line_vec) / line_len**2)
      let tp := ((p2.1 - p1.1) * (p3.1 - p1.1) + (p2.2.1 - p1.2.1) * (p3.2.1 - p1.2.1)) /
        lineLen ^ 2
      let cx := p1.1 + tp * (p3.1 - p1.1)
      let cy := p1.2.1 + tp * (p3.2.1 - p1.2.1)
      let colErr := Real.sqrt ((p2.1 - cx) ^ 2 + (p2.2.1 - cy) ^ 2)
      ((colErr : WithTop ℝ), (sRat : WithTop ℝ), d12, d23)

/-- `StrictLEDDetector._validate_triplet`: the four early-return rejection
tests of the Python code, written as the conjunction of the conditions
under which none of them fires (`not (col_error > max)` is `col_error ≤
max` in the linear order of `WithTop ℝ`, and similarly for the others). -/
def validT (t : Pt × Pt × Pt) : Prop :=
  (calcGeom t).1 ≤ ((maxColErr : ℝ) : WithTop ℝ) ∧
  ((1 - spacingTol : ℝ) : WithTop ℝ) ≤ (calcGeom t).2.1 ∧
  (calcGeom t).2.1 ≤ ((1 + spacingTol : ℝ) : WithTop ℝ) ∧
  minLedDist ≤ (calcGeom t).2.2.1 ∧ (calcGeom t).2.2.1 ≤ maxLedDist ∧
  minLedDist ≤ (calcGeom t).2.2.2 ∧ (calcGeom t).2.2.2 ≤ maxLedDist

/-- The selection score `col_error + abs(spacing_ratio - 1.0) * 10` of
`_find_best_triplet`, in the arithmetic of `WithTop ℝ` (float infinity is
absorbing for `+`, matching IEEE infinity for these nonnegative values). -/
def scoreT (t : Pt × Pt × Pt) : WithTop ℝ :=
  (calcGeom t).1 + WithTop.map (fun r => |r - 1| * 10) (calcGeom t).2.1

/-- Ordered pairs of a list: helper for `combos3`. -/
def pairsOf {α : Type} : List α → List (α × α)
  | [] => []
  | x :: xs => (xs.map (fun y => (x, y))) ++ pairsOf xs

/-- All 3-element combinations of a list in the order produced by Python's
`itertools.combinations(blobs, 3)` (lexicographic in the original
indices, each combination keeping the original relative order). -/
def combos3 {α : Type} : List α → List (α × α × α)
  | [] => []
  | x :: xs => ((pairsOf xs).map (fun p => (x, p.1, p.2))) ++ combos3 xs

/-- One iteration of the `for triplet in combinations(blobs, 3)` loop of
`_find_best_triplet`: skip invalid triplets, otherwise keep the triplet
if its score strictly improves oe the best score so far.  The accumulator
is `(best_triplet, best_score)` with `best_score` starting at
`float('inf') = ⊤`. -/
def bestStep (acc : Option (Pt × Pt × Pt) × WithTop ℝ) (t : Pt × Pt × Pt) :
    Option (Pt × Pt × Pt) × WithTop ℝ :=
  if validT t then
    if scoreT t < acc.2 then (some t, scoreT t) else acc
  else acc

/-- `StrictLEDDetector._find_best_triplet`. -/
def findBestTriplet (blobs : List Pt) : Option (Pt × Pt × Pt) :=
  if blobs.length < 3 then none
  else ((combos3 blobs).foldl bestStep (none, ⊤)).1

/-- State of one `cv2.KalmanFilter(4, 2)` as used by `KalmanTracker`:
the posterior state vector `(x, y, vx, vy)` and posterior covariance. -/
structure KState where
  vec : Fin 4 → ℝ
  cov : Matrix (Fin 4) (Fin 4) ℝ

/-- Constant-velocity transition matrix of `KalmanTracker.__init__`. -/
def kTrans : Matrix (Fin 4) (Fin 4) ℝ :=
  !![1, 0, 1, 0; 0, 1, 0, 1; 0, 0, 1, 0; 0, 0, 0, 1]

/-- Position-only measurement matrix of `KalmanTracker.__init__`. -/
def kMeas : Matrix (Fin 2) (Fin 4) ℝ := !![1, 0, 0, 0; 0, 1, 0, 0]

/-- Process noise covariance `np.eye(4) * 1.0`. -/
def kProcNoise : Matrix (Fin 4) (Fin 4) ℝ := (1 : ℝ) • (1 : Matrix (Fin 4) (Fin 4) ℝ)

/-- Measurement noise covariance `np.eye(2) * 5.0`. -/
def kMeasNoise : Matrix (Fin 2) (Fin 2) ℝ := (5 : ℝ) • (1 : Matrix (Fin 2) (Fin 2) ℝ)

/-- `KalmanTracker.__init__(x, y)`: state `(x, y, 0, 0)` with identity
posterior covariance. -/
def kinit (x y : ℝ) : KState := ⟨![x, y, 0, 0], 1⟩

/-- The predict step of `cv2.KalmanFilter`. -/
def kpredict (s : KState) : KState :=
  ⟨kTrans.mulVec s.vec, kTrans * s.cov * kTrans.transpose + kProcNoise⟩

/-- The correct step of `cv2.KalmanFilter` with measurement `z`. -/
def kcorrect (s : KState) (z : Fin 2 → ℝ) : KState :=
  let gain := s.cov * kMeas.transpose * (kMeas * s.cov * kMeas.transpose + kMeasNoise)⁻¹
  ⟨s.vec + gain.mulVec (z - kMeas.mulVec s.vec),
    (1 - gain * kMeas) * s.cov⟩

/-- `KalmanTracker.update(x, y)`: predict, then correct; returns the new
state together with the corrected `(x, y)`. -/
def kupdate (s : KState) (x y : ℝ) : KState × ℝ × ℝ :=
  let sc := kcorrect (kpredict s) ![x, y]
  (sc, sc.vec 0, sc.vec 1)

/-- A detected LED record (`LEDDetection` of `led_detector_estricto.py`). -/
structure LEDDet where
  x : ℝ
  y : ℝ
  confidence : ℝ
  led_id : ℕ

/-- Tracker dictionary of `StrictLEDDetector` (`self.trackers`): one
optional Kalman state per LED index.  (The `frame_count` and
`last_valid_detection` bookkeeping fields do not influence any output and
are not modelled.) -/
abbrev StrictState : Type := ℕ → Option KState

/-- The per-LED body of the `for i, (x, y, conf) in enumerate(...)` loop of
`StrictLEDDetector.detect`: create a tracker at its first sight (returning
the raw position), otherwise run a Kalman update. -/
def stepTracker (trk : StrictState) (i : ℕ) (x y : ℝ) : StrictState × ℝ × ℝ :=
  match trk i with
  | none => (fun k => if k = i then some (kinit x y) else trk k, x, y)
  | some s =>
      let r := kupdate s x y
      (fun k => if k = i then some r.1 else trk k, r.2)

/-- `StrictLEDDetector.detect` from the blob list onward (the blob list is
what `_find_bright_blobs` returns for the frame; the OpenCV pixel
processing producing it is outside the embedding).  Returns the new
tracker state and `(success, leds, geometry_error, spacing_ratio)`;
failure reports `float('inf') = ⊤` for both metrics. -/
def strictDetect (st : StrictState) (blobs : List Pt) :
    StrictState × Bool × List LEDDet × WithTop ℝ × WithTop ℝ :=
  match findBestTriplet blobs with
  | none => (st, false, [], ⊤, ⊤)
  | some t =>
      let g := calcGeom t
      let s := sort3 t.1 t.2.1 t.2.2
      let r0 := stepTracker st 0 s.1.1 s.1.2.1
      let r1 := stepTracker r0.1 1 s.2.1.1 s.2.1.2.1
      let r2 := stepTracker r1.1 2 s.2.2.1 s.2.2.2.1
      (r2.1, true,
        [⟨r0.2.1, r0.2.2, s.1.2.2, 0⟩, ⟨r1.2.1, r1.2.2, s.2.1.2.2, 1⟩,
          ⟨r2.2.1, r2.2.2, s.2.2.2.2, 2⟩],
        g.1, g.2.1)

/-- Python's stable `sorted(detections, key=lambda d: d[0])` oe an
arbitrary list: insertion sort with `≤` oe the `x` coordinate is stable
and therefore produces the same list as Timsort. -/
def sortByX (l : List Pt) : List Pt :=
  l.insertionSort (fun p q => p.1 ≤ q.1)

/-- Python's stable `all_detections.sort(key=lambda d: d[2], reverse=True)`:
a stable sort into descending confidence order. -/
def sortByConfDesc (l : List Pt) : List Pt :=
  l.insertionSort (fun p q => q.2.2 ≤ p.2.2)

/-- Cluster merge radius `distance_threshold = 20` of `_merge_detections`. -/
def mergeRadius : ℝ := 20

/-- One iteration of the outer `for i, ... in enumerate(all_detections)`
loop of `RobustLEDDetector._merge_detections`, acting oe the sorted list
`s`.  The accumulator carries the `used` index set (as a list, membership
being all that is consulted) and the `merged` output list.  The inner
`for j` loop absorbs every not-yet-used later point within the merge
radius; adding `j` to `used` inside that loop only affects later outer
iterations, so it is rendered as a filter over the `used` set at the start
of the iteration. -/
def mergeStep (s : List Pt) (acc : List ℕ × List Pt) (i : ℕ) : List ℕ × List Pt :=
  if i ∈ acc.1 then acc
  else
    let p := s.getD i (0, 0, 0)
    let absorbed := (List.range s.length).filter
      (fun j => i < j ∧ j ∉ acc.1 ∧ distPt p (s.getD j (0, 0, 0)) < mergeRadius)
    let cluster := p :: absorbed.map (fun j => s.getD j (0, 0, 0))
    let confSum := (cluster.map (fun q => q.2.2)).sum
    -- weights = confs / sum(confs); avg = sum(coord * weights)
    let avgX := (cluster.map (fun q => q.1 * (q.2.2 / confSum))).sum
    let avgY := (cluster.map (fun q => q.2.1 * (q.2.2 / confSum))).sum
    -- avg_conf = np.mean(confs)  (arithmetic mean!)
    let avgConf := confSum / cluster.length
    (acc.1 ++ absorbed ++ [i], acc.2 ++ [(avgX, avgY, avgConf)])

/-- `RobustLEDDetector._merge_detections`: flatten the per-method
detection lists, sort by confidence descending, then greedily cluster. -/
def mergeDetections (ls : List (List Pt)) : List Pt :=
  let all := ls.flatten
  if all = [] then []
  else
    let s := sortByConfDesc all
    ((List.range s.length).foldl (mergeStep s) ([], [])).2

/-- The capping step of `RobustLEDDetector.detect`
(`if len(detections) > self.expected_leds: detections = detections[:3]`),
with the default `expected_leds = 3`. -/
def capLeds (l : List Pt) : List Pt :=
  if 3 < l.length then l.take 3 else l

/-- Maximum identity jump `max_jump_dist = 150` px of
`_assign_led_ids_robust`. -/
def maxJump : ℝ := 150

/-- One iteration of the inner `for new_idx, ... in enumerate(detections)`
loop of `_assign_led_ids_robust`: a candidate is skipped when already
claimed (`usedIdx`) or when its distance from the old position exceeds the
maximum jump; otherwise it replaces the best candidate so far when
strictly closer.  The accumulator is `(best_new_idx, best_dist)` with
`best_dist` starting at `float('inf') = ⊤`. -/
def bmStep (usedIdx : List ℕ) (pOld : Pt) (best : Option ℕ × WithTop ℝ) (np : ℕ × Pt) :
    Option ℕ × WithTop ℝ :=
  if np.1 ∈ usedIdx then best
  else
    if maxJump < distPt pOld np.2 then best
    else if ((distPt pOld np.2 : ℝ) : WithTop ℝ) < best.2 then
      (some np.1, ((distPt pOld np.2 : ℝ) : WithTop ℝ))
    else best

/-- The inner loop of `_assign_led_ids_robust` for one old slot at
position `pOld`: find the nearest not-yet-claimed detection whose
distance does not exceed the maximum jump. -/
def bestMatch (dets : List Pt) (usedIdx : List ℕ) (pOld : Pt) : Option ℕ :=
  (dets.enum.foldl (bmStep usedIdx pOld) (none, ⊤)).1

/-- One iteration of the outer `for old_idx, ... in
enumerate(self.last_positions)` loop: slot `op.1` claims its best match
exclusively, extending the association list (the Python `assignment`
dict in insertion order).  The Python `used` set always equals the set of
already assigned new indices, so the claim-check consults the
association's values. -/
def paStep (dets : List Pt) (acc : List (ℕ × ℕ)) (op : ℕ × Pt) : List (ℕ × ℕ) :=
  match bestMatch dets (acc.map Prod.snd) op.2 with
  | some n => acc ++ [(op.1, n)]
  | none => acc

/-- The proximity phase of `_assign_led_ids_robust`. -/
def proximityAssign (lastPos dets : List Pt) : List (ℕ × ℕ) :=
  lastPos.enum.foldl (paStep dets) []

/-- Mutable tracking state of `RobustLEDDetector`: `last_positions`
(`none` before the first full detection) and the per-id
`led_trajectory` histories. -/
structure TrackState where
  last : Option (List Pt)
  traj : ℕ → List (ℝ × ℝ)

/-- Append one `(x, y)` sample to the trajectory of id `i`
(`self.led_trajectory[i].append((x, y))`). -/
def pushTraj (tr : ℕ → List (ℝ × ℝ)) (i : ℕ) (p : Pt) : ℕ → List (ℝ × ℝ) :=
  fun k => if k = i then tr k ++ [(p.1, p.2.1)] else tr k

/-- `RobustLEDDetector._assign_led_ids_robust` with the default
`expected_leds = 3`.  Returns the new state together with
`(assigned_detections, assigned_ids)`; the two Python arrays start as
`[None] * len(detections)` and we keep the `Option` in the result type.
The Python loop writes both arrays and the trajectories in a single pass
over `assignment.items()`; the writes are independent, so they appear
here as one fold per array over the same association list. -/
def assignLedIds (st : TrackState) (dets0 : List Pt) :
    TrackState × List (Option Pt) × List (Option ℕ) :=
  let dets := sortByX dets0
  if dets.length ≠ 3 then (st, dets.map some, (List.range dets.length).map some)
  else
    match st.last with
    | none =>
        (⟨some dets, (dets.enum.foldl (fun tr ip => pushTraj tr ip.1 ip.2) st.traj)⟩,
          dets.map some, (List.range dets.length).map some)
    | some lastPos =>
        let asg := proximityAssign lastPos dets
        let arrD := asg.foldl (fun arr p => arr.set p.2 (some (dets.getD p.2 (0, 0, 0))))
          (List.replicate dets.length none)
        let arrI := asg.foldl (fun arr p => arr.set p.2 (some p.1))
          (List.replicate dets.length (none : Option ℕ))
        let traj1 := asg.foldl (fun tr p => pushTraj tr p.1 (dets.getD p.2 (0, 0, 0))) st.traj
        -- assigned_indices = set(old_idx for old_idx in assignment if old_idx < 3)
        let assignedIdx := (asg.map Prod.fst).filter (fun o => o < 3)
        let unassignedIds := (List.range 3).filter (fun i => i ∉ assignedIdx)
        let unassignedDets := (List.range dets.length).filter
          (fun i => (arrD.getD i none) = none)
        let pairs := unassignedDets.zip unassignedIds
        let arrD2 := pairs.foldl (fun arr p => arr.set p.1 (some (dets.getD p.1 (0, 0, 0)))) arrD
        let arrI2 := pairs.foldl (fun arr p => arr.set p.1 (some p.2)) arrI
        let traj2 := pairs.foldl (fun tr p => pushTraj tr p.2 (dets.getD p.1 (0, 0, 0))) traj1
        (⟨some dets, traj2⟩, arrD2, arrI2)

/-- `RobustLEDDetector.detect` from the four per-method candidate lists
onward (lines 544-556; the OpenCV extractors that produce those lists are
outside the embedding): fuse, cap to the expected count, assign ids.  The
`leds` list collects the entries of `assigned_detections` (in Python,
building `LEDDetection`s from that list requires every entry to be
non-`None`, which holds in every reachable state); `success` is
`len(leds) == expected_leds`. -/
def robustDetect (st : TrackState) (d1 d2 d3 d4 : List Pt) :
    TrackState × Bool × List Pt × List (Option ℕ) :=
  let dets := capLeds (mergeDetections [d1, d2, d3, d4])
  let r := assignLedIds st dets
  let leds := r.2.1.reduceOption
  (r.1, decide (leds.length = 3), leds, r.2.2)

/-- Ascending stable sort of a list of reals (what `np.percentile` does
internally before interpolating). -/
def sortAsc (l : List ℝ) : List ℝ := l.insertionSort (fun a b => a ≤ b)

/-- `np.percentile(a, q)` with the default linear interpolation: for a
sorted sample of size `n`, the value at fractional index
`(n - 1) * q / 100`. -/
def percentile (l : List ℝ) (q : ℝ) : ℝ :=
  let s := sortAsc l
  let idx : ℝ := ((l.length : ℝ) - 1) * q / 100
  let i : ℕ := ⌊idx⌋₊
  let lo := s.getD i 0
  let hi := s.getD (i + 1) lo
  lo + (hi - lo) * (idx - (i : ℝ))

/-- The per-sample retention test of the IQR mask of
`VideoProcessor.calculate_error_statistics`:
`(xs >= q1_x - 3*iqr_x) & (xs <= q3_x + 3*iqr_x) & (ys >= ...) & (ys <= ...)`. -/
def inIQRBounds (positions : List (ℝ × ℝ)) (p : ℝ × ℝ) : Prop :=
  let xs := positions.map Prod.fst
  let ys := positions.map Prod.snd
  let q1x := percentile xs 25
  let q3x := percentile xs 75
  let q1y := percentile ys 25
  let q3y := percentile ys 75
  q1x - 3 * (q3x - q1x) ≤ p.1 ∧ p.1 ≤ q3x + 3 * (q3x - q1x) ∧
  q1y - 3 * (q3y - q1y) ≤ p.2 ∧ p.2 ≤ q3y + 3 * (q3y - q1y)

/-- The outlier filtering of `calculate_error_statistics` for one
trajectory: build the boolean IQR mask over the samples and keep the
samples where it is true (`positions[valid_mask]` keeps order).  An empty
trajectory is mapped to the empty list by the early `continue`. -/
def filterOutliers (positions : List (ℝ × ℝ)) : List (ℝ × ℝ) :=
  if positions = [] then []
  else
    let mask := positions.map (fun p => inIQRBounds positions p)
    ((positions.zip mask).filter (fun pm => pm.2)).map Prod.fst

/-- Population mean of a list of reals (`np.mean`). -/
def meanList (l : List ℝ) : ℝ := l.sum / l.length

/-- Population standard deviation of a list of reals (`np.std`). -/
def stdList (l : List ℝ) : ℝ :=
  Real.sqrt ((l.map (fun v => (v - meanList l) ^ 2)).sum / l.length)

/-- The per-LED statistics of `calculate_error_statistics` computed from
the filtered trajectory: `none` when no samples survive (the Python code
then reports `None` fields), otherwise the mean position, the standard
deviation of the per-sample distances to the mean, and the per-axis
standard deviations. -/
def ledStats (positions : List (ℝ × ℝ)) : Option ((ℝ × ℝ) × ℝ × ℝ × ℝ) :=
  let f := filterOutliers positions
  if f.length = 0 then none
  else
    let mx := meanList (f.map Prod.fst)
    let my := meanList (f.map Prod.snd)
    let devs := f.map (fun p => Real.sqrt ((p.1 - mx) ^ 2 + (p.2 - my) ^ 2))
    some ((mx, my), stdList devs, stdList (f.map Prod.fst), stdList (f.map Prod.snd))

/-- Generic form of the array-filling loops of `_assign_led_ids_robust`:
starting from an array, write `some v` at position `m` for each `(m, v)`
of a list, in order.  Both `assigned_detections` and `assigned_ids` (and
both the proximity and the fill loop) are instances of this after
reindexing the pair list. -/
def setAll {α : Type} (init : List (Option α)) (l : List (ℕ × α)) : List (Option α) :=
  l.foldl (fun arr p => arr.set p.1 (some p.2)) init

/-! ### Helper lemmas -/

theorem sqrt_le_of_sq {a b : ℝ} (hb : 0 ≤ b) (h : a ≤ b ^ 2) : Real.sqrt a ≤ b := by
  calc Real.sqrt a ≤ Real.sqrt (b ^ 2) := Real.sqrt_le_sqrt h
    _ = b := Real.sqrt_sq hb

theorem le_sqrt_of_sq {a b : ℝ} (hb : 0 ≤ b) (h : b ^ 2 ≤ a) : b ≤ Real.sqrt a := by
  calc b = Real.sqrt (b ^ 2) := (Real.sqrt_sq hb).symm
    _ ≤ Real.sqrt a := Real.sqrt_le_sqrt h

theorem lt_sqrt_of_sq {a b : ℝ} (hb : 0 ≤ b) (h : b ^ 2 < a) : b < Real.sqrt a := by
  have := Real.sqrt_lt_sqrt (sq_nonneg b) h
  rwa [Real.sqrt_sq hb] at this

theorem sqrt_eq_of_sq {a b : ℝ} (hb : 0 ≤ b) (h : b ^ 2 = a) : Real.sqrt a = b := by
  rw [← h, Real.sqrt_sq hb]

/-- Geometry of the perpendicular-offset family of spec property 2:
`p1 = (0,0)`, `p3 = (200,0)`, `p2 = (100, D)` with `D ≥ 0`. -/
theorem calcGeom_offsetTriple (D : ℝ) (hD : 0 ≤ D) :
    calcGeom ((0, 0, 1), (200, 0, 1), (100, D, 1)) =
      ((D : WithTop ℝ), ((1 : ℝ) : WithTop ℝ),
        Real.sqrt (10000 + D ^ 2), Real.sqrt (10000 + D ^ 2)) := by
  have hs : sort3 ((0 : ℝ), (0 : ℝ), (1 : ℝ)) (200, 0, 1) (100, D, 1) =
      ((0, 0, 1), (100, D, 1), (200, 0, 1)) := by
    simp only [sort3]
    norm_num
  have hd12 : distPt ((0 : ℝ), (0 : ℝ), (1 : ℝ)) (100, D, 1) = Real.sqrt (10000 + D ^ 2) := by
    simp only [distPt]
    congr 1
    ring
  have hd23 : distPt ((100 : ℝ), D, (1 : ℝ)) (200, 0, 1) = Real.sqrt (10000 + D ^ 2) := by
    simp only [distPt]
    congr 1
    ring
  have hline : distPt ((0 : ℝ), (0 : ℝ), (1 : ℝ)) (200, 0, 1) = 200 := by
    simp only [distPt]
    apply sqrt_eq_of_sq (by norm_num)
    norm_num
  have hge : (1 : ℝ) ≤ Real.sqrt (10000 + D ^ 2) := by
    apply le_sqrt_of_sq (by norm_num)
    nlinarith
  have hne : Real.sqrt (10000 + D ^ 2) ≠ 0 := by positivity
  simp only [calcGeom, hs, hd12, hd23, hline]
  rw [if_neg (by push_neg; constructor <;> linarith)]
  rw [if_neg (by norm_num)]
  rw [div_self hne]
  norm_num
  exact Real.sqrt_sq hD

/-! ### C2: perpendicular-offset sensitivity of the geometric validator -/

/-- C2: for the triplet `p1 = (0,0)`, `p3 = (200,0)`, `p2 = (100,D)` the
computed `collinearity_error` equals `D` for every `D ∈ {0, 3, 10}`; the
triplet passes `_validate_triplet` for `D = 3` and is rejected for
`D = 10` (collinearity tolerance 5 px). -/
theorem collinearity_offset_cases :
    (calcGeom ((0, 0, 1), (200, 0, 1), (100, 0, 1))).1 = ((0 : ℝ) : WithTop ℝ) ∧
    (calcGeom ((0, 0, 1), (200, 0, 1), (100, 3, 1))).1 = ((3 : ℝ) : WithTop ℝ) ∧
    (calcGeom ((0, 0, 1), (200, 0, 1), (100, 10, 1))).1 = ((10 : ℝ) : WithTop ℝ) ∧
    validT ((0, 0, 1), (200, 0, 1), (100, 3, 1)) ∧
    ¬ validT ((0, 0, 1), (200, 0, 1), (100, 10, 1)) := by
  have h0 := calcGeom_offsetTriple 0 (by norm_num)
  have h3 := calcGeom_offsetTriple 3 (by norm_num)
  have h10 := calcGeom_offsetTriple 10 (by norm_num)
  refine ⟨by rw [h0], by rw [h3], by rw [h10], ?_, ?_⟩
  · unfold validT
    rw [h3]
    refine ⟨?_, ?_, ?_, ?_, ?_, ?_, ?_⟩
    · exact WithTop.coe_le_coe.mpr (by norm_num [maxColErr])
    · exact WithTop.coe_le_coe.mpr (by norm_num [spacingTol])
    · exact WithTop.coe_le_coe.mpr (by norm_num [spacingTol])
    · unfold minLedDist
      exact le_sqrt_of_sq (by norm_num) (by norm_num)
    · unfold maxLedDist
      exact sqrt_le_of_sq (by norm_num) (by norm_num)
    · unfold minLedDist
      exact le_sqrt_of_sq (by norm_num) (by norm_num)
    · unfold maxLedDist
      exact sqrt_le_of_sq (by norm_num) (by norm_num)
  · unfold validT
    rw [h10]
    intro h
    have h1 := h.1
    rw [WithTop.coe_le_coe] at h1
    norm_num [maxColErr] at h1

/-! ### The best-triplet search -/

/-- A triplet that passes `_validate_triplet` has a finite score: the
collinearity error and spacing ratio are bounded by the (finite)
tolerances, so neither is the infinity sentinel. -/
theorem scoreT_lt_top {t : Pt × Pt × Pt} (h : validT t) : scoreT t < ⊤ := by
  have h1 : (calcGeom t).1 < ⊤ :=
    lt_of_le_of_lt h.1 (WithTop.coe_lt_top (maxColErr : ℝ))
  have h2 : (calcGeom t).2.1 < ⊤ :=
    lt_of_le_of_lt h.2.2.1 (WithTop.coe_lt_top (1 + spacingTol : ℝ))
  obtain ⟨c, hc⟩ := WithTop.ne_top_iff_exists.mp h1.ne
  obtain ⟨r, hr⟩ := WithTop.ne_top_iff_exists.mp h2.ne
  rw [scoreT, ← hc, ← hr, WithTop.map_coe, ← WithTop.coe_add]
  exact WithTop.coe_lt_top _

/-- Invariant of the `for triplet in combinations(...)` fold of
`_find_best_triplet`: the accumulator always holds a validated triplet
from the processed prefix together with its score, the score never
increases, and oe termination it is a lower bound oe the score of every
validated processed triplet; if the accumulator is still `none` the
processed triplets were all invalid. -/
theorem bestFold_spec (l : List (Pt × Pt × Pt)) :
    ∀ acc : Option (Pt × Pt × Pt) × WithTop ℝ,
    (∀ t, acc.1 = some t → validT t ∧ acc.2 = scoreT t) →
    (acc.1 = none → acc.2 = ⊤) →
    (∀ t, (l.foldl bestStep acc).1 = some t →
      validT t ∧ (l.foldl bestStep acc).2 = scoreT t ∧ (t ∈ l ∨ acc.1 = some t)) ∧
    ((l.foldl bestStep acc).1 = none → acc.1 = none ∧ ∀ t ∈ l, ¬ validT t) ∧
    (l.foldl bestStep acc).2 ≤ acc.2 ∧
    (∀ t ∈ l, validT t → (l.foldl bestStep acc).2 ≤ scoreT t) := by
  induction l with
  | nil =>
      intro acc hsome hnone
      refine ⟨fun t ht => ⟨(hsome t ht).1, (hsome t ht).2, Or.inr ht⟩,
        fun h => ⟨h, by simp⟩, le_refl _, by simp⟩
  | cons x xs ih =>
      intro acc hsome hnone
      have hstep : ∀ t, (bestStep acc x).1 = some t → validT t ∧ (bestStep acc x).2 = scoreT t := by
        intro t ht
        by_cases hv : validT x
        · by_cases hlt : scoreT x < acc.2
          · simp only [bestStep, if_pos hv, if_pos hlt] at ht ⊢
            cases ht
            exact ⟨hv, rfl⟩
          · simp only [bestStep, if_pos hv, if_neg hlt] at ht ⊢
            exact hsome t ht
        · simp only [bestStep, if_neg hv] at ht ⊢
          exact hsome t ht
      have hstepn : (bestStep acc x).1 = none → (bestStep acc x).2 = ⊤ := by
        intro ht
        by_cases hv : validT x
        · by_cases hlt : scoreT x < acc.2
          · simp only [bestStep, if_pos hv, if_pos hlt] at ht
            exact Option.noConfusion ht
          · simp only [bestStep, if_pos hv, if_neg hlt] at ht ⊢
            exact hnone ht
        · simp only [bestStep, if_neg hv] at ht ⊢
          exact hnone ht
      obtain ⟨ih1, ih2, ih3, ih4⟩ := ih (bestStep acc x) hstep hstepn
      have hdec : (bestStep acc x).2 ≤ acc.2 := by
        by_cases hv : validT x
        · by_cases hlt : scoreT x < acc.2
          · simp only [bestStep, if_pos hv, if_pos hlt]
            exact le_of_lt hlt
          · simp only [bestStep, if_pos hv, if_neg hlt]
            exact le_refl _
        · simp only [bestStep, if_neg hv]
          exact le_refl _
      have hxbound : validT x → (bestStep acc x).2 ≤ scoreT x := by
        intro hv
        by_cases hlt : scoreT x < acc.2
        · simp only [bestStep, if_pos hv, if_pos hlt]
          exact le_refl _
        · simp only [bestStep, if_pos hv, if_neg hlt]
          exact le_of_not_lt hlt
      refine ⟨?_, ?_, ?_, ?_⟩
      · intro t ht
        simp only [List.foldl_cons] at ht
        obtain ⟨h1, h2, h3⟩ := ih1 t ht
        refine ⟨h1, h2, ?_⟩
        rcases h3 with h3 | h3
        · exact Or.inl (List.mem_cons_of_mem _ h3)
        · by_cases hv : validT x
          · by_cases hlt : scoreT x < acc.2
            · simp only [bestStep, if_pos hv, if_pos hlt] at h3
              cases h3
              exact Or.inl (List.mem_cons_self _ _)
            · simp only [bestStep, if_pos hv, if_neg hlt] at h3
              exact Or.inr h3
          · simp only [bestStep, if_neg hv] at h3
            exact Or.inr h3
      · intro ht
        simp only [List.foldl_cons] at ht
        obtain ⟨h1, h2⟩ := ih2 ht
        have hvx : ¬ validT x := by
          intro hv
          by_cases hlt : scoreT x < acc.2
          · simp only [bestStep, if_pos hv, if_pos hlt] at h1
            exact Option.noConfusion h1
          · simp only [bestStep, if_pos hv, if_neg hlt] at h1
            exact hlt (by rw [hnone h1]; exact scoreT_lt_top hv)
        have hacc : acc.1 = none := by
          simpa only [bestStep, if_neg hvx] using h1
        refine ⟨hacc, fun t htl hv => ?_⟩
        rcases List.mem_cons.mp htl with rfl | htl
        · exact hvx hv
        · exact h2 t htl hv
      · calc (List.foldl bestStep (bestStep acc x) xs).2 ≤ (bestStep acc x).2 := ih3
          _ ≤ acc.2 := hdec
      · intro t htl hv
        rcases List.mem_cons.mp htl with rfl | htl
        · calc (List.foldl bestStep (bestStep acc t) xs).2 ≤ (bestStep acc t).2 := ih3
            _ ≤ scoreT t := hxbound hv
        · exact ih4 t htl hv

/-- Fewer than three blobs produce no 3-combination at all. -/
theorem combos3_short {α : Type} (l : List α) (h : l.length < 3) : combos3 l = [] := by
  match l, h with
  | [], _ => rfl
  | [a], _ => rfl
  | [a, b], _ => rfl

/-- Full functional specification of `_find_best_triplet`: a returned
triplet is a validated combination of the blobs of minimal score; `none`
is returned exactly when no combination validates (in particular whenever
fewer than 3 blobs exist). -/
theorem findBest_spec (blobs : List Pt) :
    (blobs.length < 3 → findBestTriplet blobs = none) ∧
    (∀ t, findBestTriplet blobs = some t →
      t ∈ combos3 blobs ∧ validT t ∧ ∀ u ∈ combos3 blobs, validT u → scoreT t ≤ scoreT u) ∧
    (findBestTriplet blobs = none → ∀ u ∈ combos3 blobs, ¬ validT u) := by
  by_cases hlen : blobs.length < 3
  · refine ⟨fun _ => by simp [findBestTriplet, hlen], ?_, ?_⟩
    · intro t ht
      simp [findBestTriplet, hlen] at ht
    · intro _ u hu
      rw [combos3_short blobs hlen] at hu
      simp at hu
  · obtain ⟨h1, h2, _, h4⟩ := bestFold_spec (combos3 blobs) (none, ⊤) (by simp) (by simp)
    refine ⟨fun h => absurd h hlen, ?_, ?_⟩
    · intro t ht
      rw [findBestTriplet, if_neg hlen] at ht
      obtain ⟨hv, hsc, hmem⟩ := h1 t ht
      rcases hmem with hmem | hmem
      · exact ⟨hmem, hv, fun u hu huv => hsc ▸ h4 u hu huv⟩
      · simp at hmem
    · intro ht u hu
      rw [findBestTriplet, if_neg hlen] at ht
      exact (h2 ht).2 u hu

/-! ### C3: best-triplet selection -/

/-- C3: among all 3-point combinations passing every geometric constraint,
`_find_best_triplet` returns one minimizing
`score = collinearity_error + 10 * abs(spacing_ratio - 1)`; with no passing
combination (or fewer than 3 blobs) it returns `none` and `detect` reports
`success = False`. -/
theorem find_best_triplet_minimizes (blobs : List Pt) :
    (∀ t, findBestTriplet blobs = some t →
      t ∈ combos3 blobs ∧ validT t ∧
        ∀ u ∈ combos3 blobs, validT u → scoreT t ≤ scoreT u) ∧
    (findBestTriplet blobs = none → ∀ u ∈ combos3 blobs, ¬ validT u) ∧
    (blobs.length < 3 → findBestTriplet blobs = none) ∧
    (∀ st : StrictState, findBestTriplet blobs = none →
      (strictDetect st blobs).2.1 = false) := by
  obtain ⟨h1, h2, h3⟩ := findBest_spec blobs
  refine ⟨h2, h3, h1, ?_⟩
  intro st hn
  simp only [strictDetect, hn]

/-! ### C4: degenerate geometry -/

/-- C4: a triplet whose x-sorted points have a near-zero (below 1 px)
consecutive distance or baseline gets the infinite sentinel `(⊤, ⊤)` for
collinearity error and spacing ratio, always fails validation, and is
never returned by the best-triplet selection. -/
theorem degenerate_geometry_sentinel (t : Pt × Pt × Pt)
    (h : distPt (sort3 t.1 t.2.1 t.2.2).1 (sort3 t.1 t.2.1 t.2.2).2.1 < 1 ∨
         distPt (sort3 t.1 t.2.1 t.2.2).2.1 (sort3 t.1 t.2.1 t.2.2).2.2 < 1 ∨
         distPt (sort3 t.1 t.2.1 t.2.2).1 (sort3 t.1 t.2.1 t.2.2).2.2 < 1) :
    (calcGeom t).1 = ⊤ ∧ (calcGeom t).2.1 = ⊤ ∧ ¬ validT t ∧
      ∀ blobs : List Pt, findBestTriplet blobs ≠ some t := by
  have hsent : calcGeom t = (⊤, ⊤, 0, 0) := by
    simp only [calcGeom]
    by_cases h12 : distPt (sort3 t.1 t.2.1 t.2.2).1 (sort3 t.1 t.2.1 t.2.2).2.1 < 1 ∨
        distPt (sort3 t.1 t.2.1 t.2.2).2.1 (sort3 t.1 t.2.1 t.2.2).2.2 < 1
    · rw [if_pos h12]
    · have hline : distPt (sort3 t.1 t.2.1 t.2.2).1 (sort3 t.1 t.2.1 t.2.2).2.2 < 1 := by
        rcases h with h | h | h
        · exact absurd (Or.inl h) h12
        · exact absurd (Or.inr h) h12
        · exact h
      rw [if_neg h12, if_pos hline]
  have hnv : ¬ validT t := by
    intro hv
    have := hv.1
    rw [hsent] at this
    exact (WithTop.not_top_le_coe _) this
  refine ⟨by rw [hsent], by rw [hsent], hnv, ?_⟩
  intro blobs hsome
  exact hnv ((findBest_spec blobs).2.1 t hsome).2.1

/-! ### Concrete evaluation of the nice collinear triple -/

/-- Geometry of the perfectly collinear, equally spaced triple
`(0,0), (100,0), (200,0)`. -/
theorem calcGeom_nice :
    calcGeom ((0, 0, 1), (100, 0, 1), (200, 0, 1)) =
      (((0 : ℝ) : WithTop ℝ), ((1 : ℝ) : WithTop ℝ), 100, 100) := by
  have hs : sort3 ((0 : ℝ), (0 : ℝ), (1 : ℝ)) (100, 0, 1) (200, 0, 1) =
      ((0, 0, 1), (100, 0, 1), (200, 0, 1)) := by
    simp only [sort3]
    norm_num
  have hd12 : distPt ((0 : ℝ), (0 : ℝ), (1 : ℝ)) (100, 0, 1) = 100 := by
    simp only [distPt]
    apply sqrt_eq_of_sq (by norm_num)
    norm_num
  have hd23 : distPt ((100 : ℝ), (0 : ℝ), (1 : ℝ)) (200, 0, 1) = 100 := by
    simp only [distPt]
    apply sqrt_eq_of_sq (by norm_num)
    norm_num
  have hline : distPt ((0 : ℝ), (0 : ℝ), (1 : ℝ)) (200, 0, 1) = 200 := by
    simp only [distPt]
    apply sqrt_eq_of_sq (by norm_num)
    norm_num
  simp only [calcGeom, hs, hd12, hd23, hline]
  rw [if_neg (by norm_num), if_neg (by norm_num)]
  norm_num

/-- The nice triple validates. -/
theorem validT_nice : validT ((0, 0, 1), (100, 0, 1), (200, 0, 1)) := by
  unfold validT
  rw [calcGeom_nice]
  refine ⟨WithTop.coe_le_coe.mpr (by norm_num [maxColErr]),
    WithTop.coe_le_coe.mpr (by norm_num [spacingTol]),
    WithTop.coe_le_coe.mpr (by norm_num [spacingTol]),
    by norm_num [minLedDist], by norm_num [maxLedDist],
    by norm_num [minLedDist], by norm_num [maxLedDist]⟩

/-- Best-triplet search oe the three nice blobs returns the (unique)
combination. -/
theorem findBest_nice :
    findBestTriplet [(0, 0, 1), (100, 0, 1), (200, 0, 1)] =
      some ((0, 0, 1), (100, 0, 1), (200, 0, 1)) := by
  have hc : combos3 [((0 : ℝ), (0 : ℝ), (1 : ℝ)), (100, 0, 1), (200, 0, 1)] =
      [((0, 0, 1), (100, 0, 1), (200, 0, 1))] := by
    simp [combos3, pairsOf]
  rw [findBestTriplet, if_neg (by norm_num), hc]
  simp only [List.foldl_cons, List.foldl_nil, bestStep, if_pos validT_nice]
  rw [if_pos (lt_of_lt_of_le (scoreT_lt_top validT_nice) le_top)]

/-! ### C1: success carries exactly 3 detections -/

/-- C1: in both detectors, the reported `success` flag is `True` exactly
when the list of reported LEDs has length 3; in particular a successful
frame always carries exactly 3 detections. -/
theorem success_iff_three_detections :
    (∀ (st : StrictState) (blobs : List Pt),
      (strictDetect st blobs).2.1 = true ↔ (strictDetect st blobs).2.2.1.length = 3) ∧
    (∀ (st : TrackState) (d1 d2 d3 d4 : List Pt),
      (robustDetect st d1 d2 d3 d4).2.1 = true ↔
        (robustDetect st d1 d2 d3 d4).2.2.1.length = 3) := by
  constructor
  · intro st blobs
    cases h : findBestTriplet blobs with
    | none => simp [strictDetect, h]
    | some t => simp [strictDetect, h]
  · intro st d1 d2 d3 d4
    simp only [robustDetect, decide_eq_true_eq]

/-- Witness: oe the three nice collinear blobs the strict detector
succeeds and indeed reports exactly 3 LEDs. -/
theorem success_iff_three_detections_w :
    (strictDetect (fun _ => none) [(0, 0, 1), (100, 0, 1), (200, 0, 1)]).2.1 = true ∧
    (strictDetect (fun _ => none) [(0, 0, 1), (100, 0, 1), (200, 0, 1)]).2.2.1.length = 3 := by
  have hsucc : (strictDetect (fun _ => none)
      [((0 : ℝ), (0 : ℝ), (1 : ℝ)), (100, 0, 1), (200, 0, 1)]).2.1 = true := by
    simp only [strictDetect, findBest_nice]
  exact ⟨hsucc,
    (success_iff_three_detections.1 (fun _ => none) [(0, 0, 1), (100, 0, 1), (200, 0, 1)]).mp hsucc⟩

/-- Witness: oe the three nice collinear blobs the search returns a
validated combination of minimal score. -/
theorem find_best_triplet_minimizes_w :
    validT ((0, 0, 1), (100, 0, 1), (200, 0, 1)) ∧
    ∀ u ∈ combos3 [((0 : ℝ), (0 : ℝ), (1 : ℝ)), (100, 0, 1), (200, 0, 1)], validT u →
      scoreT ((0, 0, 1), (100, 0, 1), (200, 0, 1)) ≤ scoreT u := by
  have h := (find_best_triplet_minimizes [(0, 0, 1), (100, 0, 1), (200, 0, 1)]).1
    ((0, 0, 1), (100, 0, 1), (200, 0, 1)) findBest_nice
  exact ⟨h.2.1, h.2.2⟩

/-- Witness: the fully degenerate triple of three copies of `(0,0)` gets
the sentinel, fails validation, and is never selected. -/
theorem degenerate_geometry_sentinel_w :
    (calcGeom ((0, 0, 1), (0, 0, 1), (0, 0, 1))).1 = ⊤ ∧
    (calcGeom ((0, 0, 1), (0, 0, 1), (0, 0, 1))).2.1 = ⊤ ∧
    ¬ validT ((0, 0, 1), (0, 0, 1), (0, 0, 1)) ∧
    ∀ blobs : List Pt, findBestTriplet blobs ≠ some ((0, 0, 1), (0, 0, 1), (0, 0, 1)) := by
  apply degenerate_geometry_sentinel
  left
  have hs : sort3 ((0 : ℝ), (0 : ℝ), (1 : ℝ)) (0, 0, 1) (0, 0, 1) =
      ((0, 0, 1), (0, 0, 1), (0, 0, 1)) := by
    simp [sort3]
  rw [hs]
  norm_num [distPt]

/-! ### C10: short-circuit when the detection count is not 3 -/

/-- C10: whenever the (fused) detection count differs from the expected 3,
`_assign_led_ids_robust` returns the detections sorted by ascending `x`
with ids `0..n-1`, does not consult the previous positions (the output is
the same for every state), and leaves `last_positions` and the trajectory
histories unchanged. -/
theorem bypass_when_not_three (st : TrackState) (dets0 : List Pt)
    (h : dets0.length ≠ 3) :
    (assignLedIds st dets0).1 = st ∧
    (assignLedIds st dets0).2.1 = (sortByX dets0).map some ∧
    (assignLedIds st dets0).2.2 = (List.range dets0.length).map some ∧
    List.Sorted (fun p q : Pt => p.1 ≤ q.1) (sortByX dets0) ∧
    (sortByX dets0).Perm dets0 ∧
    ∀ st' : TrackState, (assignLedIds st' dets0).2 = (assignLedIds st dets0).2 := by
  have hlen : (sortByX dets0).length = dets0.length := List.length_insertionSort _ _
  have hne : (sortByX dets0).length ≠ 3 := by rw [hlen]; exact h
  have heq : ∀ s : TrackState, assignLedIds s dets0 =
      (s, (sortByX dets0).map some, (List.range (sortByX dets0).length).map some) := by
    intro s
    simp only [assignLedIds, if_pos hne]
  haveI : IsTotal Pt (fun p q : Pt => p.1 ≤ q.1) := ⟨fun a b => le_total a.1 b.1⟩
  haveI : IsTrans Pt (fun p q : Pt => p.1 ≤ q.1) := ⟨fun _ _ _ hab hbc => le_trans hab hbc⟩
  refine ⟨by rw [heq], by rw [heq], by rw [heq, hlen], ?_, List.perm_insertionSort _ _, ?_⟩
  · exact List.sorted_insertionSort _ _
  · intro st'
    rw [heq st, heq st']

/-- Witness: a two-detection frame is passed through sorted with ids 0, 1
and the state is untouched. -/
theorem bypass_when_not_three_w :
    (assignLedIds ⟨none, fun _ => []⟩ [((5 : ℝ), (0 : ℝ), (1 : ℝ)), (1, 0, 1)]).2.2 =
      [some 0, some 1] ∧
    (assignLedIds ⟨none, fun _ => []⟩ [((5 : ℝ), (0 : ℝ), (1 : ℝ)), (1, 0, 1)]).1 =
      ⟨none, fun _ => []⟩ := by
  have h := bypass_when_not_three ⟨none, fun _ => []⟩ [(5, 0, 1), (1, 0, 1)] (by simp)
  refine ⟨?_, h.1⟩
  rw [h.2.2.1]
  simp [List.range_succ]

/-! ### C9: IQR outlier filter and statistics -/

/-- Zipping a list with its own predicate mask and keeping the marked
entries is the same as filtering by the predicate. -/
theorem zip_mask_filter {α : Type} (pr : α → Prop) (l : List α) :
    ((l.zip (l.map fun a => pr a)).filter (fun pm => pm.2)).map Prod.fst =
      l.filter (fun a => pr a) := by
  induction l with
  | nil => rfl
  | cons a l ih =>
      by_cases h : pr a
      · simp only [List.map_cons, List.zip_cons_cons, List.filter_cons]
        simp only [decide_eq_true_eq]
        rw [if_pos h, if_pos h, List.map_cons, ih]
      · simp only [List.map_cons, List.zip_cons_cons, List.filter_cons]
        simp only [decide_eq_true_eq]
        rw [if_neg h, if_neg h, ih]

/-- C9: for a non-empty trajectory the outlier pass retains a sample
exactly when both its coordinates lie inside the per-axis
`[Q1 - 3*IQR, Q3 + 3*IQR]` windows (quartiles computed independently per
axis), and the reported mean and standard deviations are computed over
exactly the retained samples. -/
theorem iqr_filter_and_stats (positions : List (ℝ × ℝ)) (hne : positions ≠ []) :
    filterOutliers positions = positions.filter (fun p => inIQRBounds positions p) ∧
    (∀ p : ℝ × ℝ, p ∈ filterOutliers positions ↔ p ∈ positions ∧ inIQRBounds positions p) ∧
    (filterOutliers positions ≠ [] →
      ledStats positions = some
        ((meanList ((filterOutliers positions).map Prod.fst),
          meanList ((filterOutliers positions).map Prod.snd)),
         stdList ((filterOutliers positions).map (fun p =>
           Real.sqrt ((p.1 - meanList ((filterOutliers positions).map Prod.fst)) ^ 2 +
             (p.2 - meanList ((filterOutliers positions).map Prod.snd)) ^ 2))),
         stdList ((filterOutliers positions).map Prod.fst),
         stdList ((filterOutliers positions).map Prod.snd))) := by
  have h1 : filterOutliers positions = positions.filter (fun p => inIQRBounds positions p) := by
    rw [filterOutliers, if_neg hne]
    exact zip_mask_filter _ _
  refine ⟨h1, ?_, ?_⟩
  · intro p
    rw [h1, List.mem_filter]
    simp only [decide_eq_true_eq]
  · intro hf
    rw [ledStats, if_neg (fun h => hf (List.length_eq_zero.mp h))]

/-- Witness: the single-sample trajectory retains its sample (quartiles
collapse onto it and the window contains it). -/
theorem iqr_filter_and_stats_w : ((0 : ℝ), (0 : ℝ)) ∈ filterOutliers [((0 : ℝ), (0 : ℝ))] := by
  apply ((iqr_filter_and_stats [((0 : ℝ), (0 : ℝ))] (by simp)).2.1 ((0 : ℝ), (0 : ℝ))).mpr
  refine ⟨by simp, ?_⟩
  unfold inIQRBounds percentile sortAsc
  norm_num [List.insertionSort, List.orderedInsert]

/-! ### Fusion of candidate points -/

/-- Evaluation of `_merge_detections` oe a two-candidate frame with the
higher-confidence candidate first: within the merge radius the two
candidates fuse into one cluster whose position is the confidence-weighted
mean and whose confidence is the arithmetic mean of the input confidences;
outside the radius they stay separate. -/
theorem mergePair_eval (p q : Pt) (hord : q.2.2 ≤ p.2.2) (hpos : 0 < q.2.2) :
    (distPt p q < 20 →
      mergeDetections [[p, q]] =
        [(p.1 * (p.2.2 / (p.2.2 + q.2.2)) + q.1 * (q.2.2 / (p.2.2 + q.2.2)),
          p.2.1 * (p.2.2 / (p.2.2 + q.2.2)) + q.2.1 * (q.2.2 / (p.2.2 + q.2.2)),
          (p.2.2 + q.2.2) / 2)]) ∧
    (¬ distPt p q < 20 → mergeDetections [[p, q]] = [p, q]) := by
  have hp : (0 : ℝ) < p.2.2 := lt_of_lt_of_le hpos hord
  have hs : sortByConfDesc [p, q] = [p, q] := by
    simp [sortByConfDesc, List.insertionSort, List.orderedInsert, hord]
  have hskip : ∀ acc : List ℕ × List Pt, (1 : ℕ) ∈ acc.1 → mergeStep [p, q] acc 1 = acc := by
    intro acc h
    simp only [mergeStep]
    rw [if_pos h]
  constructor
  · intro hd
    have h0 : mergeStep [p, q] ([], []) 0 =
        ([1, 0], [(p.1 * (p.2.2 / (p.2.2 + q.2.2)) + q.1 * (q.2.2 / (p.2.2 + q.2.2)),
          p.2.1 * (p.2.2 / (p.2.2 + q.2.2)) + q.2.1 * (q.2.2 / (p.2.2 + q.2.2)),
          (p.2.2 + q.2.2) / 2)]) := by
      simp only [mergeStep, mergeRadius]
      rw [if_neg (List.not_mem_nil 0)]
      simp only [List.getD_cons_zero, List.getD_cons_succ, List.length_cons, List.length_nil,
        List.range_succ, List.range_zero, List.nil_append, List.cons_append,
        List.filter_cons, List.filter_nil, decide_eq_true_eq]
      norm_num [hd]
    simp only [mergeDetections, List.flatten, List.append_nil]
    rw [if_neg (by simp), hs]
    simp only [List.length_cons, List.length_nil, List.range_succ, List.range_zero,
      List.nil_append, List.cons_append, List.foldl_cons, List.foldl_nil, Nat.zero_add]
    rw [h0, hskip _ (by simp)]
  · intro hd
    have h0 : mergeStep [p, q] ([], []) 0 = ([0], [p]) := by
      simp only [mergeStep, mergeRadius]
      rw [if_neg (List.not_mem_nil 0)]
      simp only [List.getD_cons_zero, List.getD_cons_succ, List.length_cons, List.length_nil,
        List.range_succ, List.range_zero, List.nil_append, List.cons_append,
        List.filter_cons, List.filter_nil, decide_eq_true_eq]
      norm_num [hd]
      rw [div_self (ne_of_gt hp)]
      norm_num
    have h1 : mergeStep [p, q] ([0], [p]) 1 = ([0, 1], [p, q]) := by
      simp only [mergeStep, mergeRadius]
      rw [if_neg (by simp)]
      simp only [List.getD_cons_zero, List.getD_cons_succ, List.length_cons, List.length_nil,
        List.range_succ, List.range_zero, List.nil_append, List.cons_append,
        List.filter_cons, List.filter_nil, decide_eq_true_eq]
      norm_num
      rw [div_self (ne_of_gt hpos)]
      norm_num
    simp only [mergeDetections, List.flatten, List.append_nil]
    rw [if_neg (by simp), hs]
    simp only [List.length_cons, List.length_nil, List.range_succ, List.range_zero,
      List.nil_append, List.cons_append, List.foldl_cons, List.foldl_nil, Nat.zero_add]
    rw [h0, h1]

/-- Distance between two points oe the same horizontal line. -/
theorem distPt_horiz (x1 x2 c1 c2 : ℝ) : distPt (x1, 0, c1) (x2, 0, c2) = |x1 - x2| := by
  simp only [distPt]
  rw [show (x1 - x2) ^ 2 + ((0 : ℝ) - 0) ^ 2 = (x1 - x2) ^ 2 by ring]
  exact Real.sqrt_sq_eq_abs _

/-- An already-used index is skipped by the outer fusion loop. -/
theorem mergeStep_mem (s : List Pt) (acc : List ℕ × List Pt) (i : ℕ) (h : i ∈ acc.1) :
    mergeStep s acc i = acc := by
  simp only [mergeStep]
  rw [if_pos h]

/-- A seed that absorbs nothing becomes a singleton cluster reproducing
the seed point (its positive confidence makes the weight `c/c = 1`). -/
theorem mergeStep_singleton (s : List Pt) (acc : List ℕ × List Pt) (i : ℕ)
    (hni : i ∉ acc.1)
    (habs : (List.range s.length).filter
      (fun j => i < j ∧ j ∉ acc.1 ∧
        distPt (s.getD i (0, 0, 0)) (s.getD j (0, 0, 0)) < mergeRadius) = [])
    (hc : 0 < (s.getD i (0, 0, 0)).2.2) :
    mergeStep s acc i = (acc.1 ++ [i], acc.2 ++ [s.getD i (0, 0, 0)]) := by
  simp only [mergeStep]
  rw [if_neg hni, habs]
  simp only [List.map_nil, List.map_cons, List.sum_cons, List.sum_nil, add_zero,
    List.length_cons, List.length_nil, zero_add, List.append_nil, Nat.cast_one, div_one]
  rw [div_self (ne_of_gt hc)]
  simp only [mul_one]

/-- Full evaluation of `_merge_detections` oe the five-candidate frame
`A=(0,0,1)`, `B=(10,0,0.1)`, `C=(100,0,0.9)`, `D=(200,0,0.8)`,
`E=(300,0,0.7)`: `A` absorbs `B` (distance 10 < 20) into a fused point of
confidence `0.55`, while `C`, `D`, `E` stay singletons.  The output order
is the cluster-seed order, i.e. descending candidate confidence. -/
theorem mergeFive_eval :
    mergeDetections [[((0 : ℝ), (0 : ℝ), (1 : ℝ)), (10, 0, 1/10), (100, 0, 9/10),
        (200, 0, 8/10), (300, 0, 7/10)]] =
      [(10/11, 0, 11/20), (100, 0, 9/10), (200, 0, 8/10), (300, 0, 7/10)] := by
  have hs : sortByConfDesc [((0 : ℝ), (0 : ℝ), (1 : ℝ)), (10, 0, 1/10), (100, 0, 9/10),
      (200, 0, 8/10), (300, 0, 7/10)] =
      [((0 : ℝ), (0 : ℝ), (1 : ℝ)), (100, 0, 9/10), (200, 0, 8/10), (300, 0, 7/10),
        (10, 0, 1/10)] := by
    norm_num [sortByConfDesc, List.insertionSort, List.orderedInsert]
  have h0 : mergeStep [((0 : ℝ), (0 : ℝ), (1 : ℝ)), (100, 0, 9/10), (200, 0, 8/10),
      (300, 0, 7/10), (10, 0, 1/10)] ([], []) 0 = ([4, 0], [(10/11, 0, 11/20)]) := by
    simp only [mergeStep, mergeRadius]
    rw [if_neg (List.not_mem_nil 0)]
    simp only [List.getD_cons_zero, List.getD_cons_succ, List.length_cons, List.length_nil,
      List.range_succ, List.range_zero, List.nil_append, List.cons_append,
      List.filter_cons, List.filter_nil, decide_eq_true_eq]
    norm_num [distPt_horiz]
  have h1 : mergeStep [((0 : ℝ), (0 : ℝ), (1 : ℝ)), (100, 0, 9/10), (200, 0, 8/10),
      (300, 0, 7/10), (10, 0, 1/10)] ([4, 0], [(10/11, 0, 11/20)]) 1 =
      ([4, 0, 1], [(10/11, 0, 11/20), (100, 0, 9/10)]) := by
    apply mergeStep_singleton
    · norm_num
    · simp only [List.getD_cons_zero, List.getD_cons_succ, List.length_cons, List.length_nil,
        List.range_succ, List.range_zero, List.nil_append, List.cons_append,
        List.filter_cons, List.filter_nil, decide_eq_true_eq]
      norm_num [distPt_horiz, mergeRadius]
    · norm_num
  have h2 : mergeStep [((0 : ℝ), (0 : ℝ), (1 : ℝ)), (100, 0, 9/10), (200, 0, 8/10),
      (300, 0, 7/10), (10, 0, 1/10)] ([4, 0, 1], [(10/11, 0, 11/20), (100, 0, 9/10)]) 2 =
      ([4, 0, 1, 2], [(10/11, 0, 11/20), (100, 0, 9/10), (200, 0, 8/10)]) := by
    apply mergeStep_singleton
    · norm_num
    · simp only [List.getD_cons_zero, List.getD_cons_succ, List.length_cons, List.length_nil,
        List.range_succ, List.range_zero, List.nil_append, List.cons_append,
        List.filter_cons, List.filter_nil, decide_eq_true_eq]
      norm_num [distPt_horiz, mergeRadius]
    · norm_num
  have h3 : mergeStep [((0 : ℝ), (0 : ℝ), (1 : ℝ)), (100, 0, 9/10), (200, 0, 8/10),
      (300, 0, 7/10), (10, 0, 1/10)]
      ([4, 0, 1, 2], [(10/11, 0, 11/20), (100, 0, 9/10), (200, 0, 8/10)]) 3 =
      ([4, 0, 1, 2, 3],
        [(10/11, 0, 11/20), (100, 0, 9/10), (200, 0, 8/10), (300, 0, 7/10)]) := by
    apply mergeStep_singleton
    · norm_num
    · simp only [List.getD_cons_zero, List.getD_cons_succ, List.length_cons, List.length_nil,
        List.range_succ, List.range_zero, List.nil_append, List.cons_append,
        List.filter_cons, List.filter_nil, decide_eq_true_eq]
      norm_num [distPt_horiz, mergeRadius]
    · norm_num
  simp only [mergeDetections, List.flatten, List.append_nil]
  rw [if_neg (by simp), hs]
  simp only [List.length_cons, List.length_nil, List.range_succ, List.range_zero,
    List.nil_append, List.cons_append, List.foldl_cons, List.foldl_nil, Nat.zero_add]
  rw [h0, h1, h2, h3, mergeStep_mem _ _ 4 (by norm_num)]

/-! ### C7: fusion of a candidate pair -/

/-- C7 counterexample: the candidates `(0,0)` with confidence `1` and
`(15,0)` with confidence `1/2` (distance 15 < 20) fuse into one point
whose confidence is the arithmetic mean `3/4 = (1 + 1/2)/2`, which differs
from the confidence-weighted mean
`(1*1 + (1/2)*(1/2)) / (1 + 1/2) = 5/6` asserted by the claim. -/
theorem fused_confidence_not_weighted_cex :
    mergeDetections [[((0 : ℝ), (0 : ℝ), (1 : ℝ)), (15, 0, 1/2)]] = [(5, 0, 3/4)] ∧
    ((3/4 : ℝ)) ≠ ((1 : ℝ) * 1 + (1/2) * (1/2)) / (1 + 1/2) := by
  have hd : distPt ((0 : ℝ), (0 : ℝ), (1 : ℝ)) (15, 0, 1/2) < 20 := by
    rw [distPt_horiz]
    norm_num
  have h := (mergePair_eval ((0 : ℝ), (0 : ℝ), (1 : ℝ)) (15, 0, 1/2)
    (by norm_num) (by norm_num)).1 hd
  refine ⟨?_, by norm_num⟩
  rw [h]
  norm_num

/-- C7 amended: a candidate pair at distance 15 (below the 20 px merge
radius) fuses into exactly one point whose position is the
confidence-weighted mean of the two positions and whose confidence is the
arithmetic mean of the two confidences (not the confidence-weighted
mean); a pair at distance 25 stays two distinct points. -/
theorem merge_pair_behavior_amended (p q : Pt) (hord : q.2.2 ≤ p.2.2) (hpos : 0 < q.2.2) :
    (distPt p q = 15 →
      mergeDetections [[p, q]] =
        [(p.1 * (p.2.2 / (p.2.2 + q.2.2)) + q.1 * (q.2.2 / (p.2.2 + q.2.2)),
          p.2.1 * (p.2.2 / (p.2.2 + q.2.2)) + q.2.1 * (q.2.2 / (p.2.2 + q.2.2)),
          (p.2.2 + q.2.2) / 2)]) ∧
    (distPt p q = 25 → mergeDetections [[p, q]] = [p, q]) := by
  constructor
  · intro h
    exact (mergePair_eval p q hord hpos).1 (by rw [h]; norm_num)
  · intro h
    exact (mergePair_eval p q hord hpos).2 (by rw [h]; norm_num)

/-- Witness: the amended fusion law evaluated oe the concrete pairs at
distance 15 and 25. -/
theorem merge_pair_behavior_amended_w :
    mergeDetections [[((0 : ℝ), (0 : ℝ), (1 : ℝ)), (15, 0, 1/2)]] = [(5, 0, 3/4)] ∧
    mergeDetections [[((0 : ℝ), (0 : ℝ), (1 : ℝ)), (25, 0, 1/2)]] =
      [((0 : ℝ), (0 : ℝ), (1 : ℝ)), (25, 0, 1/2)] := by
  constructor
  · have h := (merge_pair_behavior_amended ((0 : ℝ), (0 : ℝ), (1 : ℝ)) (15, 0, 1/2)
      (by norm_num) (by norm_num)).1 (by rw [distPt_horiz]; norm_num)
    rw [h]
    norm_num
  · exact (merge_pair_behavior_amended ((0 : ℝ), (0 : ℝ), (1 : ℝ)) (25, 0, 1/2)
      (by norm_num) (by norm_num)).2 (by rw [distPt_horiz]; norm_num)

/-! ### C8: capping the fused list -/

/-- C8 counterexample: oe the five-candidate frame of `mergeFive_eval`
fusion produces 4 points and `detect` keeps the first 3 in fusion order;
the dropped point `(300,0)` has confidence `0.7`, strictly higher than the
retained fused point of confidence `0.55`, so the retained points are not
the 3 fused points of highest confidence. -/
theorem cap_not_by_confidence_cex :
    capLeds (mergeDetections [[((0 : ℝ), (0 : ℝ), (1 : ℝ)), (10, 0, 1/10), (100, 0, 9/10),
        (200, 0, 8/10), (300, 0, 7/10)]]) =
      [(10/11, 0, 11/20), (100, 0, 9/10), (200, 0, 8/10)] ∧
    ((300 : ℝ), (0 : ℝ), (7/10 : ℝ)) ∈ mergeDetections [[((0 : ℝ), (0 : ℝ), (1 : ℝ)),
      (10, 0, 1/10), (100, 0, 9/10), (200, 0, 8/10), (300, 0, 7/10)]] ∧
    ((300 : ℝ), (0 : ℝ), (7/10 : ℝ)) ∉ capLeds (mergeDetections [[((0 : ℝ), (0 : ℝ), (1 : ℝ)),
      (10, 0, 1/10), (100, 0, 9/10), (200, 0, 8/10), (300, 0, 7/10)]]) ∧
    ((10/11 : ℝ), (0 : ℝ), (11/20 : ℝ)) ∈ capLeds (mergeDetections [[((0 : ℝ), (0 : ℝ), (1 : ℝ)),
      (10, 0, 1/10), (100, 0, 9/10), (200, 0, 8/10), (300, 0, 7/10)]]) ∧
    (11/20 : ℝ) < 7/10 := by
  rw [mergeFive_eval]
  refine ⟨by norm_num [capLeds], by norm_num, ?_, by norm_num [capLeds], by norm_num⟩
  norm_num [capLeds]

/-- C8 amended: whenever fusion produces more than the expected 3 points,
`detect` caps the list passed onward to exactly the first 3 fused points
in fusion output order (cluster seeds in descending candidate-confidence
order) — not necessarily the 3 fused points of highest confidence. -/
theorem cap_first_three_amended (ls : List (List Pt))
    (h : 3 < (mergeDetections ls).length) :
    capLeds (mergeDetections ls) = (mergeDetections ls).take 3 ∧
    (capLeds (mergeDetections ls)).length = 3 := by
  refine ⟨by rw [capLeds, if_pos h], ?_⟩
  rw [capLeds, if_pos h, List.length_take]
  exact Nat.min_eq_left (le_of_lt h)

/-- Witness: the cap applied to the four fused points of the concrete
five-candidate frame. -/
theorem cap_first_three_amended_w :
    capLeds (mergeDetections [[((0 : ℝ), (0 : ℝ), (1 : ℝ)), (10, 0, 1/10), (100, 0, 9/10),
        (200, 0, 8/10), (300, 0, 7/10)]]) =
      (mergeDetections [[((0 : ℝ), (0 : ℝ), (1 : ℝ)), (10, 0, 1/10), (100, 0, 9/10),
        (200, 0, 8/10), (300, 0, 7/10)]]).take 3 ∧
    (capLeds (mergeDetections [[((0 : ℝ), (0 : ℝ), (1 : ℝ)), (10, 0, 1/10), (100, 0, 9/10),
        (200, 0, 8/10), (300, 0, 7/10)]])).length = 3 := by
  apply cap_first_three_amended
  rw [mergeFive_eval]
  norm_num

/-! ### Tracker: the inner best-match loop -/

theorem mem_enum_lt {α : Type} {l : List α} {x : ℕ × α} (h : x ∈ l.enum) : x.1 < l.length :=
  (List.getElem?_eq_some.mp (List.mem_enum_iff_getElem?.mp h)).1

theorem mem_enum_mem {α : Type} {l : List α} {x : ℕ × α} (h : x ∈ l.enum) : x.2 ∈ l :=
  List.getElem?_mem (List.mem_enum_iff_getElem?.mp h)

theorem mem_enum_getD {α : Type} {l : List α} {x : ℕ × α} (h : x ∈ l.enum) (d : α) :
    l.getD x.1 d = x.2 := by
  rw [List.getD_eq_getElem?_getD, List.mem_enum_iff_getElem?.mp h, Option.getD_some]

theorem enum_functional {α : Type} {l : List α} {n : ℕ} {q q' : α}
    (h : (n, q) ∈ l.enum) (h' : (n, q') ∈ l.enum) : q = q' := by
  have h1 := List.mem_enum_iff_getElem?.mp h
  have h2 := List.mem_enum_iff_getElem?.mp h'
  exact Option.some_inj.mp (h1.symm.trans h2)

/-- Invariant of the inner `for new_idx` fold: a `some` result names an
unclaimed candidate within the maximum jump, a `none` result means every
unclaimed candidate was farther than the maximum jump (and the best
distance is still infinite). -/
theorem bmFold_spec (u : List ℕ) (pOld : Pt) (l : List (ℕ × Pt)) :
    ∀ acc : Option ℕ × WithTop ℝ,
    (acc.1 = none → acc.2 = ⊤) →
    ((l.foldl (bmStep u pOld) acc).1 = none →
      acc.1 = none ∧ ∀ np ∈ l, np.1 ∉ u → maxJump < distPt pOld np.2) ∧
    (∀ n, (l.foldl (bmStep u pOld) acc).1 = some n →
      acc.1 = some n ∨ (n ∉ u ∧ ∃ q, (n, q) ∈ l ∧ distPt pOld q ≤ maxJump)) ∧
    ((l.foldl (bmStep u pOld) acc).1 = none → (l.foldl (bmStep u pOld) acc).2 = ⊤) := by
  induction l with
  | nil =>
      intro acc h
      exact ⟨fun hn => ⟨hn, by simp⟩, fun n hn => Or.inl hn, fun hn => h hn⟩
  | cons x xs ih =>
      intro acc h
      by_cases hu : x.1 ∈ u
      · have hstep : bmStep u pOld acc x = acc := by
          simp only [bmStep]
          rw [if_pos hu]
        obtain ⟨ih1, ih2, ih3⟩ := ih acc h
        rw [List.foldl_cons, hstep]
        refine ⟨?_, ?_, ih3⟩
        · intro hn
          obtain ⟨ha, hall⟩ := ih1 hn
          refine ⟨ha, fun np hnp hnu => ?_⟩
          rcases List.mem_cons.mp hnp with rfl | hnp
          · exact absurd hu hnu
          · exact hall np hnp hnu
        · intro n hn
          rcases ih2 n hn with hl | hr
          · exact Or.inl hl
          · exact Or.inr ⟨hr.1, hr.2.choose, List.mem_cons_of_mem _ hr.2.choose_spec.1,
              hr.2.choose_spec.2⟩
      · by_cases hj : maxJump < distPt pOld x.2
        · have hstep : bmStep u pOld acc x = acc := by
            simp only [bmStep]
            rw [if_neg hu, if_pos hj]
          obtain ⟨ih1, ih2, ih3⟩ := ih acc h
          rw [List.foldl_cons, hstep]
          refine ⟨?_, ?_, ih3⟩
          · intro hn
            obtain ⟨ha, hall⟩ := ih1 hn
            refine ⟨ha, fun np hnp hnu => ?_⟩
            rcases List.mem_cons.mp hnp with rfl | hnp
            · exact hj
            · exact hall np hnp hnu
          · intro n hn
            rcases ih2 n hn with hl | hr
            · exact Or.inl hl
            · exact Or.inr ⟨hr.1, hr.2.choose, List.mem_cons_of_mem _ hr.2.choose_spec.1,
                hr.2.choose_spec.2⟩
        · by_cases hlt : ((distPt pOld x.2 : ℝ) : WithTop ℝ) < acc.2
          · have hstep : bmStep u pOld acc x =
                (some x.1, ((distPt pOld x.2 : ℝ) : WithTop ℝ)) := by
              simp only [bmStep]
              rw [if_neg hu, if_neg hj, if_pos hlt]
            obtain ⟨ih1, ih2, ih3⟩ := ih (some x.1, ((distPt pOld x.2 : ℝ) : WithTop ℝ))
              (by intro hc; exact Option.noConfusion hc)
            rw [List.foldl_cons, hstep]
            refine ⟨?_, ?_, ih3⟩
            · intro hn
              exact absurd (ih1 hn).1 (by simp)
            · intro n hn
              rcases ih2 n hn with hl | hr
              · cases hl
                exact Or.inr ⟨hu, x.2, List.mem_cons_self _ _, le_of_not_lt hj⟩
              · exact Or.inr ⟨hr.1, hr.2.choose, List.mem_cons_of_mem _ hr.2.choose_spec.1,
                  hr.2.choose_spec.2⟩
          · have hstep : bmStep u pOld acc x = acc := by
              simp only [bmStep]
              rw [if_neg hu, if_neg hj, if_neg hlt]
            obtain ⟨ih1, ih2, ih3⟩ := ih acc h
            rw [List.foldl_cons, hstep]
            refine ⟨?_, ?_, ih3⟩
            · intro hn
              obtain ⟨ha, hall⟩ := ih1 hn
              exact absurd (h ha ▸ WithTop.coe_lt_top (distPt pOld x.2)) hlt
            · intro n hn
              rcases ih2 n hn with hl | hr
              · exact Or.inl hl
              · exact Or.inr ⟨hr.1, hr.2.choose, List.mem_cons_of_mem _ hr.2.choose_spec.1,
                  hr.2.choose_spec.2⟩

/-- A successful `bestMatch` names an unclaimed candidate index whose
point is within the maximum jump of the old position. -/
theorem bestMatch_some {dets : List Pt} {u : List ℕ} {p : Pt} {n : ℕ}
    (h : bestMatch dets u p = some n) :
    n ∉ u ∧ ∃ q, (n, q) ∈ dets.enum ∧ distPt p q ≤ maxJump := by
  rw [bestMatch] at h
  rcases (bmFold_spec u p dets.enum (none, ⊤) (by simp)).2.1 n h with hl | hr
  · exact absurd hl (by simp)
  · exact hr

/-- A failed `bestMatch` means every unclaimed candidate is farther than
the maximum jump. -/
theorem bestMatch_none {dets : List Pt} {u : List ℕ} {p : Pt}
    (h : bestMatch dets u p = none) :
    ∀ np ∈ dets.enum, np.1 ∉ u → maxJump < distPt p np.2 := by
  rw [bestMatch] at h
  exact ((bmFold_spec u p dets.enum (none, ⊤) (by simp)).1 h).2

/-! ### Tracker: the outer proximity-assignment loop -/

/-- Each outer iteration only appends to the association list. -/
theorem paStep_prefix (dets : List Pt) (acc : List (ℕ × ℕ)) (op : ℕ × Pt) :
    ∃ ext, paStep dets acc op = acc ++ ext := by
  rw [paStep]
  cases bestMatch dets (acc.map Prod.snd) op.2 with
  | none => exact ⟨[], by simp⟩
  | some n => exact ⟨[(op.1, n)], rfl⟩

/-- The whole proximity fold only appends to the association list. -/
theorem paFold_prefix (dets : List Pt) (l : List (ℕ × Pt)) :
    ∀ acc, ∃ ext, l.foldl (paStep dets) acc = acc ++ ext := by
  induction l with
  | nil => exact fun acc => ⟨[], by simp⟩
  | cons x xs ih =>
      intro acc
      obtain ⟨e1, he1⟩ := paStep_prefix dets acc x
      obtain ⟨e2, he2⟩ := ih (paStep dets acc x)
      exact ⟨e1 ++ e2, by rw [List.foldl_cons, he2, he1, List.append_assoc]⟩

/-- Membership in the association list is preserved by the fold. -/
theorem paFold_mono (dets : List Pt) (l : List (ℕ × Pt)) (acc : List (ℕ × ℕ))
    {x : ℕ × ℕ} (hx : x ∈ acc) : x ∈ l.foldl (paStep dets) acc := by
  obtain ⟨ext, he⟩ := paFold_prefix dets l acc
  rw [he]
  exact List.mem_append_left _ hx

/-- Main invariant of the proximity phase: distinct claimed detection
indices, distinct slot indices, and every association pairs a slot with a
detection within the maximum jump. -/
theorem paFold_inv (dets : List Pt) (E : List (ℕ × Pt)) :
    ∀ (l : List (ℕ × Pt)) (acc : List (ℕ × ℕ)),
    (∀ x ∈ l, x ∈ E) →
    List.Pairwise (fun a b : ℕ × Pt => a.1 < b.1) l →
    (∀ k ∈ acc.map Prod.fst, ∀ e ∈ l, k < e.1) →
    (acc.map Prod.snd).Nodup →
    (acc.map Prod.fst).Nodup →
    (∀ oe ∈ acc, ∃ p q, (oe.1, p) ∈ E ∧ (oe.2, q) ∈ dets.enum ∧ distPt p q ≤ maxJump) →
    ((l.foldl (paStep dets) acc).map Prod.snd).Nodup ∧
    ((l.foldl (paStep dets) acc).map Prod.fst).Nodup ∧
    (∀ oe ∈ l.foldl (paStep dets) acc,
      ∃ p q, (oe.1, p) ∈ E ∧ (oe.2, q) ∈ dets.enum ∧ distPt p q ≤ maxJump) := by
  intro l
  induction l with
  | nil =>
      intro acc _ _ _ h4 h5 h6
      exact ⟨h4, h5, h6⟩
  | cons op rest ih =>
      intro acc hsub hpw hkey h4 h5 h6
      rw [List.foldl_cons]
      cases hbm : bestMatch dets (acc.map Prod.snd) op.2 with
      | none =>
          have hstep : paStep dets acc op = acc := by rw [paStep, hbm]
          rw [hstep]
          refine ih acc (fun x hx => hsub x (List.mem_cons_of_mem _ hx))
            (List.Pairwise.of_cons hpw)
            (fun k hk e he => hkey k hk e (List.mem_cons_of_mem _ he)) h4 h5 h6
      | some n =>
          have hstep : paStep dets acc op = acc ++ [(op.1, n)] := by rw [paStep, hbm]
          rw [hstep]
          obtain ⟨hnu, q, hq, hdq⟩ := bestMatch_some hbm
          refine ih (acc ++ [(op.1, n)]) (fun x hx => hsub x (List.mem_cons_of_mem _ hx))
            (List.Pairwise.of_cons hpw) ?_ ?_ ?_ ?_
          · intro k hk e he
            rw [List.map_append] at hk
            rcases List.mem_append.mp hk with hk | hk
            · exact hkey k hk e (List.mem_cons_of_mem _ he)
            · simp only [List.map_cons, List.map_nil, List.mem_singleton] at hk
              subst hk
              exact (List.pairwise_cons.mp hpw).1 e he
          · rw [List.map_append, List.nodup_append]
            refine ⟨h4, by simp, ?_⟩
            intro a ha hb
            simp only [List.map_cons, List.map_nil, List.mem_singleton] at hb
            subst hb
            exact hnu ha
          · rw [List.map_append, List.nodup_append]
            refine ⟨h5, by simp, ?_⟩
            intro a ha hb
            simp only [List.map_cons, List.map_nil, List.mem_singleton] at hb
            subst hb
            exact absurd (hkey op.1 ha op (List.mem_cons_self _ _)) (lt_irrefl _)
          · intro oe hon
            rcases List.mem_append.mp hon with hon | hon
            · exact h6 oe hon
            · simp only [List.mem_singleton] at hon
              subst hon
              exact ⟨op.2, q, hsub op (List.mem_cons_self _ _), hq, hdq⟩

/-- Specification of the full proximity phase. -/
theorem proximityAssign_spec (lastPos dets : List Pt) :
    ((proximityAssign lastPos dets).map Prod.snd).Nodup ∧
    ((proximityAssign lastPos dets).map Prod.fst).Nodup ∧
    ∀ oe ∈ proximityAssign lastPos dets,
      ∃ p q, (oe.1, p) ∈ lastPos.enum ∧ (oe.2, q) ∈ dets.enum ∧ distPt p q ≤ maxJump := by
  have hpw : List.Pairwise (fun a b : ℕ × Pt => a.1 < b.1) lastPos.enum := by
    have h1 : List.Pairwise (· < ·) (lastPos.enum.map Prod.fst) := by
      rw [List.enum_map_fst]
      exact List.pairwise_lt_range _
    exact (List.pairwise_map.mp h1)
  exact paFold_inv dets lastPos.enum lastPos.enum [] (fun x hx => hx) hpw
    (by simp) (by simp) (by simp) (by simp)

/-- A slot that ends up unmatched by the proximity phase had every
candidate within the maximum jump of its last position already claimed:
any such candidate index is among the claimed values. -/
theorem paFold_unmatched (dets : List Pt) :
    ∀ (l : List (ℕ × Pt)) (acc : List (ℕ × ℕ)),
    ∀ op ∈ l, op.1 ∉ (l.foldl (paStep dets) acc).map Prod.fst →
    ∀ np ∈ dets.enum, distPt op.2 np.2 ≤ maxJump →
      np.1 ∈ (l.foldl (paStep dets) acc).map Prod.snd := by
  intro l
  induction l with
  | nil =>
      intro acc op hop
      simp at hop
  | cons x xs ih =>
      intro acc op hop hnk np hnp hd
      rw [List.foldl_cons] at hnk ⊢
      rcases List.mem_cons.mp hop with rfl | hop
      · cases hbm : bestMatch dets (acc.map Prod.snd) op.2 with
        | some n =>
            exfalso
            apply hnk
            have : (op.1, n) ∈ xs.foldl (paStep dets) (paStep dets acc op) := by
              apply paFold_mono
              rw [paStep, hbm]
              exact List.mem_append_right _ (List.mem_singleton.mpr rfl)
            exact List.mem_map.mpr ⟨(op.1, n), this, rfl⟩
        | none =>
            have hcl : np.1 ∈ acc.map Prod.snd := by
              by_contra hncl
              exact absurd hd (not_le.mpr (bestMatch_none hbm np hnp hncl))
            have hstep : paStep dets acc op = acc := by rw [paStep, hbm]
            rw [hstep]
            obtain ⟨ext, he⟩ := paFold_prefix dets xs acc
            rw [he, List.map_append]
            exact List.mem_append_left _ hcl
      · exact ih (paStep dets acc x) op hop hnk np hnp hd

/-! ### Array-filling lemmas -/

theorem setAll_nil {α : Type} (init : List (Option α)) : setAll init [] = init := rfl

theorem setAll_append {α : Type} (init : List (Option α)) (l1 l2 : List (ℕ × α)) :
    setAll init (l1 ++ l2) = setAll (setAll init l1) l2 := by
  simp [setAll, List.foldl_append]

theorem setAll_length {α : Type} (l : List (ℕ × α)) :
    ∀ init : List (Option α), (setAll init l).length = init.length := by
  induction l with
  | nil => intro init; rfl
  | cons x xs ih =>
      intro init
      rw [setAll, List.foldl_cons, ← setAll]
      rw [ih, List.length_set]

theorem setAll_getElem_ne {α : Type} (l : List (ℕ × α)) :
    ∀ (init : List (Option α)) (m : ℕ), m ∉ l.map Prod.fst →
    (setAll init l)[m]? = init[m]? := by
  induction l with
  | nil => intro init m _; rfl
  | cons x xs ih =>
      intro init m hm
      rw [List.map_cons, List.mem_cons] at hm
      push_neg at hm
      rw [setAll, List.foldl_cons, ← setAll, ih _ _ hm.2]
      exact List.getElem?_set_ne (fun h => hm.1 h.symm)

theorem setAll_getElem_mem {α : Type} (l : List (ℕ × α)) :
    ∀ (init : List (Option α)) (m : ℕ) (v : α), (l.map Prod.fst).Nodup →
    (m, v) ∈ l → m < init.length →
    (setAll init l)[m]? = some (some v) := by
  induction l with
  | nil =>
      intro init m v _ hm
      simp at hm
  | cons x xs ih =>
      intro init m v hnd hm hlt
      rw [List.map_cons, List.nodup_cons] at hnd
      rw [setAll, List.foldl_cons, ← setAll]
      rcases List.mem_cons.mp hm with rfl | hm
      · rw [setAll_getElem_ne xs _ _ hnd.1]
        exact List.getElem?_set_self hlt
      · exact ih _ _ _ hnd.2 hm (by rw [List.length_set]; exact hlt)

theorem set_perm_cons {α : Type} (a : List α) (m : ℕ) (h : m < a.length) (b : α) :
    List.Perm (a.set m b) (b :: a.eraseIdx m) := by
  rw [List.set_eq_take_cons_drop b h, List.eraseIdx_eq_take_drop_succ]
  exact List.perm_middle

theorem perm_cons_eraseIdx {α : Type} (a : List α) (m : ℕ) (x : α)
    (h : a[m]? = some x) : List.Perm a (x :: a.eraseIdx m) := by
  have hm : m < a.length := (List.getElem?_eq_some.mp h).1
  have hx : a[m] = x := by
    have := List.getElem?_eq_getElem hm
    rw [h] at this
    exact (Option.some_inj.mp this).symm
  have hdecomp : a = a.take m ++ x :: a.drop (m + 1) := by
    conv_lhs => rw [← List.take_append_drop m a]
    rw [← List.getElem_cons_drop a m hm, hx]
  rw [List.eraseIdx_eq_take_drop_succ]
  nth_rewrite 1 [hdecomp]
  exact List.perm_middle

theorem nodup_lt_length_le (l : List ℕ) (L : ℕ) (hnd : l.Nodup) (hlt : ∀ x ∈ l, x < L) :
    l.length ≤ L := by
  calc l.length = l.toFinset.card := (List.toFinset_card_of_nodup hnd).symm
    _ ≤ (Finset.range L).card := Finset.card_le_card (fun x hx => by
        rw [Finset.mem_range]
        exact hlt x (List.mem_toFinset.mp hx))
    _ = L := Finset.card_range L

/-- Writing a list of distinct in-range positions into an all-`none`
array of length `L` produces, up to permutation, the written values
(wrapped in `some`) together with the remaining untouched `none`
entries. -/
theorem setAll_perm {α : Type} (L : ℕ) (l : List (ℕ × α))
    (hnd : (l.map Prod.fst).Nodup) (hlt : ∀ p ∈ l, p.1 < L) :
    List.Perm (setAll (List.replicate L (none : Option α)) l)
      (l.map (fun p => some p.2) ++ List.replicate (L - l.length) (none : Option α)) := by
  induction l using List.reverseRecOn with
  | nil =>
      simp [setAll_nil]
  | append_singleton l x ih =>
      have hndl : (l.map Prod.fst).Nodup ∧ x.1 ∉ l.map Prod.fst := by
        rw [List.map_append, List.nodup_append] at hnd
        exact ⟨hnd.1, fun hx => hnd.2.2 hx (by simp)⟩
      have hltl : ∀ p ∈ l, p.1 < L := fun p hp => hlt p (List.mem_append_left _ hp)
      have hlen1 : l.length + 1 ≤ L := by
        have : ((l ++ [x]).map Prod.fst).length ≤ L :=
          nodup_lt_length_le _ L hnd (by
            intro y hy
            obtain ⟨p, hp, rfl⟩ := List.mem_map.mp hy
            exact hlt p hp)
        simpa using this
      have hW := ih hndl.1 hltl
      have hWlen : (setAll (List.replicate L (none : Option α)) l).length = L := by
        rw [setAll_length, List.length_replicate]
      have hx1 : x.1 < L := hlt x (List.mem_append_right _ (by simp))
      have hWm : (setAll (List.replicate L (none : Option α)) l)[x.1]? = some none := by
        rw [setAll_getElem_ne l _ _ hndl.2]
        rw [List.getElem?_replicate, if_pos hx1]
      rw [setAll_append]
      have hset : setAll (setAll (List.replicate L (none : Option α)) l) [x] =
          (setAll (List.replicate L (none : Option α)) l).set x.1 (some x.2) := rfl
      rw [hset]
      have h1 : List.Perm ((setAll (List.replicate L (none : Option α)) l).set x.1 (some x.2))
          (some x.2 :: (setAll (List.replicate L (none : Option α)) l).eraseIdx x.1) :=
        set_perm_cons _ _ (by rw [hWlen]; exact hx1) _
      have h2 : List.Perm (setAll (List.replicate L (none : Option α)) l)
          ((none : Option α) :: (setAll (List.replicate L (none : Option α)) l).eraseIdx x.1) :=
        perm_cons_eraseIdx _ _ _ hWm
      have h3 : List.Perm
          ((none : Option α) :: (setAll (List.replicate L (none : Option α)) l).eraseIdx x.1)
          (l.map (fun p => some p.2) ++ List.replicate (L - l.length) (none : Option α)) :=
        h2.symm.trans hW
      have hk : L - l.length = (L - (l.length + 1)) + 1 := by omega
      have h4 : List.Perm
          (l.map (fun p => some p.2) ++ List.replicate (L - l.length) (none : Option α))
          ((none : Option α) ::
            (l.map (fun p => some p.2) ++ List.replicate (L - (l.length + 1)) none)) := by
        rw [hk, List.replicate_succ]
        exact List.perm_middle
      have h5 : List.Perm ((setAll (List.replicate L (none : Option α)) l).eraseIdx x.1)
          (l.map (fun p => some p.2) ++ List.replicate (L - (l.length + 1)) (none : Option α)) :=
        (h3.trans h4).cons_inv
      refine h1.trans ((h5.cons (some x.2)).trans ?_)
      rw [List.map_append, List.length_append]
      simp only [List.map_cons, List.map_nil, List.length_cons, List.length_nil]
      rw [List.append_assoc]
      exact List.perm_middle.symm

theorem zip_map_snd_take {α β : Type} : ∀ (l1 : List α) (l2 : List β),
    (l1.zip l2).map Prod.snd = l2.take l1.length := by
  intro l1
  induction l1 with
  | nil => intro l2; simp
  | cons a l ih =>
      intro l2
      cases l2 with
      | nil => simp
      | cons b l2 => simp [ih]

theorem filterMap_id_replicate_none {α : Type} (k : ℕ) :
    (List.replicate k (none : Option α)).filterMap id = [] := by
  induction k with
  | zero => rfl
  | succ n ih => simp [List.replicate_succ, ih]

/-- The sub-list of `range n` lying in a duplicate-free list `s` of
naturals below `n` is a permutation of `s`. -/
theorem range_filter_mem_perm (s : List ℕ) (n : ℕ) (hnd : s.Nodup) (hlt : ∀ x ∈ s, x < n) :
    List.Perm ((List.range n).filter (fun i => i ∈ s)) s := by
  apply List.perm_of_nodup_nodup_toFinset_eq ((List.nodup_range n).filter _) hnd
  ext x
  simp only [List.mem_toFinset, List.mem_filter, List.mem_range, decide_eq_true_eq]
  exact ⟨fun h => h.2, fun h => ⟨hlt x h, h⟩⟩

/-- Counting the complement: the entries of `range n` outside `s`. -/
theorem range_filter_not_mem_length (s : List ℕ) (n : ℕ) (hnd : s.Nodup)
    (hlt : ∀ x ∈ s, x < n) :
    ((List.range n).filter (fun i => i ∉ s)).length = n - s.length := by
  have hperm := List.filter_append_perm (fun i => decide (i ∈ s)) (List.range n)
  have hcongr : (List.range n).filter (fun i => !decide (i ∈ s)) =
      (List.range n).filter (fun i => i ∉ s) := by
    apply List.filter_congr
    intro x _
    rw [decide_not]
  have hlen := hperm.length_eq
  rw [List.length_append, hcongr] at hlen
  have hin : ((List.range n).filter (fun i => decide (i ∈ s))).length = s.length :=
    (range_filter_mem_perm s n hnd hlt).length_eq
  rw [List.length_range] at hlen
  omega

theorem filterMap_id_map_some {α β : Type} (f : α → β) (l : List α) :
    (l.map (fun a => some (f a))).filterMap id = l.map f := by
  induction l with
  | nil => rfl
  | cons a l ih => simp [ih]

/-- Core correctness of the id-construction phase of
`_assign_led_ids_robust` (3 detections, previous positions known): the
produced id array never contains a duplicated id, and when the stored
`last_positions` list has the invariant length 3 the array is exactly a
permutation of `some 0, some 1, some 2`. -/
theorem fillIds_spec (lp dets : List Pt) (hlen : dets.length = 3)
    (asg : List (ℕ × ℕ)) (arrD : List (Option Pt)) (arrI : List (Option ℕ))
    (assignedIdx unassignedIds unassignedDets : List ℕ) (pairs : List (ℕ × ℕ))
    (hasg : asg = proximityAssign lp dets)
    (harrD : arrD = asg.foldl (fun arr p => arr.set p.2 (some (dets.getD p.2 (0, 0, 0))))
      (List.replicate dets.length none))
    (harrI : arrI = asg.foldl (fun arr p => arr.set p.2 (some p.1))
      (List.replicate dets.length (none : Option ℕ)))
    (hAI : assignedIdx = (asg.map Prod.fst).filter (fun o => o < 3))
    (hUI : unassignedIds = (List.range 3).filter (fun i => i ∉ assignedIdx))
    (hUD : unassignedDets = (List.range dets.length).filter
      (fun i => (arrD.getD i none) = none))
    (hP : pairs = unassignedDets.zip unassignedIds) :
    ((pairs.foldl (fun arr p => arr.set p.1 (some p.2)) arrI).filterMap id).Nodup ∧
    (lp.length = 3 →
      List.Perm (pairs.foldl (fun arr p => arr.set p.1 (some p.2)) arrI)
        [some 0, some 1, some 2]) := by
  obtain ⟨hvalN, hkeyN, hpair⟩ := proximityAssign_spec lp dets
  rw [← hasg] at hvalN hkeyN hpair
  -- claimed detection indices are in range
  have hval_lt : ∀ n ∈ asg.map Prod.snd, n < 3 := by
    intro n hn
    obtain ⟨oe, hoe, rfl⟩ := List.mem_map.mp hn
    obtain ⟨p, q, _, hq, _⟩ := hpair oe hoe
    have := mem_enum_lt hq
    omega
  have hAlen : asg.length ≤ 3 := by
    have := nodup_lt_length_le _ 3 hvalN hval_lt
    rwa [List.length_map] at this
  -- the two write loops as setAll instances
  have harrI2 : arrI = setAll (List.replicate 3 (none : Option ℕ))
      (asg.map (fun p => (p.2, p.1))) := by
    rw [harrI, hlen, setAll, List.foldl_map]
  have harrD2 : arrD = setAll (List.replicate 3 (none : Option Pt))
      (asg.map (fun p => (p.2, dets.getD p.2 (0, 0, 0)))) := by
    rw [harrD, hlen, setAll, List.foldl_map]
  have hposD : (asg.map (fun p => (p.2, dets.getD p.2 (0, 0, 0)))).map Prod.fst =
      asg.map Prod.snd := by
    rw [List.map_map]
    rfl
  -- the unmatched detections are exactly the unclaimed indices of range 3
  have hUD2 : unassignedDets = (List.range 3).filter (fun i => i ∉ asg.map Prod.snd) := by
    rw [hUD, hlen]
    apply List.filter_congr
    intro i hi
    have hi3 : i < 3 := List.mem_range.mp hi
    apply decide_eq_decide.mpr
    by_cases hmem : i ∈ asg.map Prod.snd
    · obtain ⟨oe, hoe, hoe2⟩ := List.mem_map.mp hmem
      have hpm : (i, dets.getD i (0, 0, 0)) ∈
          asg.map (fun p => (p.2, dets.getD p.2 (0, 0, 0))) :=
        List.mem_map.mpr ⟨oe, hoe, by rw [hoe2]⟩
      have hget := setAll_getElem_mem (asg.map (fun p => (p.2, dets.getD p.2 (0, 0, 0))))
        (List.replicate 3 (none : Option Pt)) i (dets.getD i (0, 0, 0))
        (by rw [hposD]; exact hvalN) hpm
        (by rw [List.length_replicate]; exact hi3)
      rw [harrD2, List.getD_eq_getElem?_getD, hget]
      simp [hmem]
    · have hget := setAll_getElem_ne (asg.map (fun p => (p.2, dets.getD p.2 (0, 0, 0))))
        (List.replicate 3 (none : Option Pt)) i (by rw [hposD]; exact hmem)
      rw [harrD2, List.getD_eq_getElem?_getD, hget, List.getElem?_replicate, if_pos hi3]
      simp [hmem]
  have hUDN : unassignedDets.Nodup := by
    rw [hUD2]
    exact (List.nodup_range 3).filter _
  have hUDlt : ∀ i ∈ unassignedDets, i < 3 := by
    intro i hi
    rw [hUD2] at hi
    exact List.mem_range.mp (List.mem_of_mem_filter hi)
  have hUDlen : unassignedDets.length = 3 - asg.length := by
    rw [hUD2, range_filter_not_mem_length _ 3 hvalN hval_lt, List.length_map]
  -- assigned slot ids
  have hAIN : assignedIdx.Nodup := by
    rw [hAI]
    exact hkeyN.filter _
  have hAIlt : ∀ i ∈ assignedIdx, i < 3 := by
    intro i hi
    rw [hAI] at hi
    have := List.of_mem_filter hi
    simpa using this
  have hAIlen : assignedIdx.length ≤ asg.length := by
    rw [hAI]
    calc ((asg.map Prod.fst).filter (fun o => o < 3)).length ≤ (asg.map Prod.fst).length :=
        List.length_filter_le _ _
      _ = asg.length := List.length_map _ _
  have hUIN : unassignedIds.Nodup := by
    rw [hUI]
    exact (List.nodup_range 3).filter _
  have hUIlt : ∀ i ∈ unassignedIds, i < 3 := by
    intro i hi
    rw [hUI] at hi
    exact List.mem_range.mp (List.mem_of_mem_filter hi)
  have hUIlen : unassignedIds.length = 3 - assignedIdx.length := by
    rw [hUI]
    exact range_filter_not_mem_length _ 3 hAIN hAIlt
  have hUDle : unassignedDets.length ≤ unassignedIds.length := by omega
  -- zip projections
  have hPfst : pairs.map Prod.fst = unassignedDets := by
    rw [hP]
    exact List.map_fst_zip _ _ hUDle
  have hPsnd : pairs.map Prod.snd = unassignedIds.take unassignedDets.length := by
    rw [hP]
    exact zip_map_snd_take _ _
  have hPlen : pairs.length = unassignedDets.length := by
    rw [hP, List.length_zip]
    omega
  -- the final array is one setAll over the combined write list
  have hfin : pairs.foldl (fun arr p => arr.set p.1 (some p.2)) arrI =
      setAll (List.replicate 3 (none : Option ℕ))
        (asg.map (fun p => (p.2, p.1)) ++ pairs) := by
    rw [setAll_append, ← harrI2]
    rfl
  -- positions of the combined list: claimed indices then unmatched indices
  have hposLc : (asg.map (fun p => (p.2, p.1)) ++ pairs).map Prod.fst =
      asg.map Prod.snd ++ unassignedDets := by
    rw [List.map_append, List.map_map, hPfst]
    rfl
  have hLcposN : ((asg.map (fun p => (p.2, p.1)) ++ pairs).map Prod.fst).Nodup := by
    rw [hposLc, List.nodup_append]
    refine ⟨hvalN, hUDN, ?_⟩
    intro a ha hb
    rw [hUD2] at hb
    have := List.of_mem_filter hb
    simp only [decide_eq_true_eq] at this
    exact this ha
  have hLclt : ∀ p ∈ asg.map (fun p => (p.2, p.1)) ++ pairs, p.1 < 3 := by
    intro p hp
    have : p.1 ∈ (asg.map (fun p => (p.2, p.1)) ++ pairs).map Prod.fst :=
      List.mem_map.mpr ⟨p, hp, rfl⟩
    rw [hposLc] at this
    rcases List.mem_append.mp this with h | h
    · exact hval_lt _ h
    · exact hUDlt _ h
  have hperm := setAll_perm 3 (asg.map (fun p => (p.2, p.1)) ++ pairs) hLcposN hLclt
  rw [← hfin] at hperm
  -- values of the combined list: slot ids from proximity, then fill ids
  have hLcsnd : (asg.map (fun p => (p.2, p.1)) ++ pairs).map Prod.snd =
      asg.map Prod.fst ++ pairs.map Prod.snd := by
    rw [List.map_append, List.map_map]
    rfl
  -- the surviving (non-none) entries are the written values
  have hfm : List.Perm ((pairs.foldl (fun arr p => arr.set p.1 (some p.2)) arrI).filterMap id)
      (asg.map Prod.fst ++ pairs.map Prod.snd) := by
    have h1 := hperm.filterMap id
    rw [List.filterMap_append, filterMap_id_replicate_none, List.append_nil] at h1
    have h2 : ((asg.map (fun p => (p.2, p.1)) ++ pairs).map
        (fun p => some p.2)).filterMap id =
        (asg.map (fun p => (p.2, p.1)) ++ pairs).map Prod.snd :=
      filterMap_id_map_some Prod.snd _
    rw [h2, hLcsnd] at h1
    exact h1
  -- values are duplicate-free
  have hvalsN : (asg.map Prod.fst ++ pairs.map Prod.snd).Nodup := by
    rw [List.nodup_append]
    refine ⟨hkeyN, ?_, ?_⟩
    · rw [hPsnd]
      exact hUIN.sublist (List.take_sublist _ _)
    · intro a ha hb
      rw [hPsnd] at hb
      have hb2 : a ∈ unassignedIds := List.mem_of_mem_take hb
      have hb3 := hb2
      rw [hUI] at hb3
      have hnotAI := List.of_mem_filter hb3
      simp only [decide_eq_true_eq] at hnotAI
      apply hnotAI
      rw [hAI]
      refine List.mem_filter.mpr ⟨ha, ?_⟩
      simp only [decide_eq_true_eq]
      exact hUIlt a hb2
  constructor
  · exact (hfm.nodup_iff).mpr hvalsN
  · intro hlp3
    -- with 3 previous positions every claimed slot id is below 3
    have hkey_lt : ∀ k ∈ asg.map Prod.fst, k < 3 := by
      intro k hk
      obtain ⟨oe, hoe, rfl⟩ := List.mem_map.mp hk
      obtain ⟨p, q, hp, _, _⟩ := hpair oe hoe
      have := mem_enum_lt hp
      omega
    have hAIeq : assignedIdx = asg.map Prod.fst := by
      rw [hAI]
      apply List.filter_eq_self.mpr
      intro o ho
      simp only [decide_eq_true_eq]
      exact hkey_lt o ho
    have hUIlen2 : unassignedIds.length = unassignedDets.length := by
      rw [hUIlen, hUDlen, hAIeq, List.length_map]
    have hPsnd2 : pairs.map Prod.snd = unassignedIds := by
      rw [hPsnd, ← hUIlen2, List.take_length]
    -- the combined write list covers all three cells
    have hLclen : (asg.map (fun p => (p.2, p.1)) ++ pairs).length = 3 := by
      rw [List.length_append, List.length_map, hPlen]
      omega
    rw [hLclen] at hperm
    simp only [Nat.sub_self, List.replicate_zero, List.append_nil] at hperm
    -- slot ids + fill ids form a permutation of 0, 1, 2
    have hids : List.Perm (asg.map Prod.fst ++ unassignedIds) (List.range 3) := by
      have hin := range_filter_mem_perm (asg.map Prod.fst) 3 hkeyN hkey_lt
      have happ := List.filter_append_perm (fun i => decide (i ∈ asg.map Prod.fst))
        (List.range 3)
      have hcongr : (List.range 3).filter (fun i => !decide (i ∈ asg.map Prod.fst)) =
          unassignedIds := by
        rw [hUI, hAIeq]
        apply List.filter_congr
        intro x _
        rw [decide_not]
      rw [hcongr] at happ
      exact (List.Perm.append hin.symm (List.Perm.refl unassignedIds)).trans happ
    have hfinal : List.Perm (pairs.foldl (fun arr p => arr.set p.1 (some p.2)) arrI)
        ((List.range 3).map some) := by
      have h2 : ((asg.map (fun p => (p.2, p.1)) ++ pairs).map (fun p => some p.2)) =
          (asg.map Prod.fst ++ unassignedIds).map some := by
        rw [← hPsnd2]
        simp only [List.map_append, List.map_map]
        congr 1
      rw [h2] at hperm
      exact hperm.trans (hids.map some)
    exact hfinal

/-! ### C6: mutual exclusivity of the canonical id assignment -/

/-- C6: `_assign_led_ids_robust` never hands one id to two current points
(the non-`none` entries of the returned id array are pairwise distinct,
hence also no current point is claimed by two slots), and when exactly 3
detections are present (with the state invariant that any stored
`last_positions` list has length 3) the returned id array is exactly a
permutation of `some 0, some 1, some 2` — no unassigned entries. -/
theorem assign_ids_mutually_exclusive (st : TrackState) (dets0 : List Pt) :
    ((assignLedIds st dets0).2.2.filterMap id).Nodup ∧
    ((st.last = none ∨ ∃ lp, st.last = some lp ∧ lp.length = 3) → dets0.length = 3 →
      List.Perm (assignLedIds st dets0).2.2 [some 0, some 1, some 2]) := by
  by_cases hlen : (sortByX dets0).length = 3
  · cases hl : st.last with
    | none =>
        have heq : (assignLedIds st dets0).2.2 =
            (List.range (sortByX dets0).length).map some := by
          simp only [assignLedIds, if_neg (not_ne_iff.mpr hlen), hl]
        rw [heq, hlen]
        constructor
        · have h := filterMap_id_map_some (fun x : ℕ => x) (List.range 3)
          rw [show (List.range 3).map some = (List.range 3).map (fun a => some a) from rfl]
          rw [h, List.map_id']
          exact List.nodup_range 3
        · intro _ _
          exact List.Perm.refl _
    | some lp =>
        have hspec := fillIds_spec lp (sortByX dets0) hlen
          (proximityAssign lp (sortByX dets0)) _ _ _ _ _ _
          rfl rfl rfl rfl rfl rfl rfl
        constructor
        · have h := hspec.1
          simp only [assignLedIds, if_neg (not_ne_iff.mpr hlen), hl]
          exact h
        · intro hinv _
          have hlp3 : lp.length = 3 := by
            rcases hinv with hi | ⟨lp', hlp', h3⟩
            · exact Option.noConfusion hi
            · rw [Option.some_inj.mp hlp']
              exact h3
          have h := hspec.2 hlp3
          simp only [assignLedIds, if_neg (not_ne_iff.mpr hlen), hl]
          exact h
  · have heq : (assignLedIds st dets0).2.2 =
        (List.range (sortByX dets0).length).map some := by
      simp only [assignLedIds, if_pos hlen]
    constructor
    · rw [heq]
      have h := filterMap_id_map_some (fun x : ℕ => x) (List.range (sortByX dets0).length)
      rw [show (List.range (sortByX dets0).length).map some =
        (List.range (sortByX dets0).length).map (fun a => some a) from rfl]
      rw [h, List.map_id']
      exact List.nodup_range _
    · intro _ h3
      exact absurd (by rw [sortByX, List.length_insertionSort]; exact h3) hlen

/-- Witness: with no previous positions and three detections, the
returned id array is a permutation of `some 0, some 1, some 2` and has no
duplicate ids. -/
theorem assign_ids_mutually_exclusive_w :
    List.Perm (assignLedIds ⟨none, fun _ => []⟩
      [((0 : ℝ), (0 : ℝ), (1 : ℝ)), (100, 0, 1), (200, 0, 1)]).2.2
      [some 0, some 1, some 2] ∧
    ((assignLedIds ⟨none, fun _ => []⟩
      [((0 : ℝ), (0 : ℝ), (1 : ℝ)), (100, 0, 1), (200, 0, 1)]).2.2.filterMap id).Nodup := by
  have h := assign_ids_mutually_exclusive ⟨none, fun _ => []⟩
    [((0 : ℝ), (0 : ℝ), (1 : ℝ)), (100, 0, 1), (200, 0, 1)]
  exact ⟨h.2 (Or.inl rfl) (by simp), h.1⟩

/-! ### Concrete tracker evaluations -/

theorem distPt_same_y (x1 x2 y c1 c2 : ℝ) : distPt (x1, y, c1) (x2, y, c2) = |x1 - x2| := by
  simp only [distPt]
  rw [show (x1 - x2) ^ 2 + (y - y) ^ 2 = (x1 - x2) ^ 2 by ring]
  exact Real.sqrt_sq_eq_abs _

theorem bmStep_used {u : List ℕ} {pOld : Pt} {best : Option ℕ × WithTop ℝ} {np : ℕ × Pt}
    (h : np.1 ∈ u) : bmStep u pOld best np = best := by
  simp only [bmStep]
  rw [if_pos h]

theorem bmStep_far {u : List ℕ} {pOld : Pt} {best : Option ℕ × WithTop ℝ} {np : ℕ × Pt}
    (h1 : np.1 ∉ u) (h2 : maxJump < distPt pOld np.2) : bmStep u pOld best np = best := by
  simp only [bmStep]
  rw [if_neg h1, if_pos h2]

theorem bmStep_better {u : List ℕ} {pOld : Pt} {best : Option ℕ × WithTop ℝ} {np : ℕ × Pt}
    (h1 : np.1 ∉ u) (h2 : ¬ maxJump < distPt pOld np.2)
    (h3 : ((distPt pOld np.2 : ℝ) : WithTop ℝ) < best.2) :
    bmStep u pOld best np = (some np.1, ((distPt pOld np.2 : ℝ) : WithTop ℝ)) := by
  simp only [bmStep]
  rw [if_neg h1, if_neg h2, if_pos h3]

theorem bmStep_worse {u : List ℕ} {pOld : Pt} {best : Option ℕ × WithTop ℝ} {np : ℕ × Pt}
    (h1 : np.1 ∉ u) (h2 : ¬ maxJump < distPt pOld np.2)
    (h3 : ¬ ((distPt pOld np.2 : ℝ) : WithTop ℝ) < best.2) :
    bmStep u pOld best np = best := by
  simp only [bmStep]
  rw [if_neg h1, if_neg h2, if_neg h3]

/-- Proximity assignment of the counterexample frame: previous positions
`(0,0), (500,0), (1000,0)`, current detections `(1,0), (2,0), (1000,0)`.
Slot 0 claims detection 0 (distance 1), slot 1 matches nothing (both
unclaimed detections are farther than 150), slot 2 claims detection 2. -/
theorem proximityAssign_cex :
    proximityAssign [((0 : ℝ), (0 : ℝ), (1 : ℝ)), (500, 0, 1), (1000, 0, 1)]
      [((1 : ℝ), (0 : ℝ), (1 : ℝ)), (2, 0, 1), (1000, 0, 1)] = [(0, 0), (2, 2)] := by
  have henum : ([((1 : ℝ), (0 : ℝ), (1 : ℝ)), (2, 0, 1), (1000, 0, 1)] : List Pt).enum =
      [(0, ((1 : ℝ), (0 : ℝ), (1 : ℝ))), (1, (2, 0, 1)), (2, (1000, 0, 1))] := rfl
  have d01 : distPt ((0 : ℝ), (0 : ℝ), (1 : ℝ)) (1, 0, 1) = 1 := by
    rw [distPt_same_y]; norm_num
  have d02 : distPt ((0 : ℝ), (0 : ℝ), (1 : ℝ)) (2, 0, 1) = 2 := by
    rw [distPt_same_y]; norm_num
  have d03 : distPt ((0 : ℝ), (0 : ℝ), (1 : ℝ)) (1000, 0, 1) = 1000 := by
    rw [distPt_same_y]; norm_num
  have d51 : distPt ((500 : ℝ), (0 : ℝ), (1 : ℝ)) (1, 0, 1) = 499 := by
    rw [distPt_same_y]; norm_num
  have d52 : distPt ((500 : ℝ), (0 : ℝ), (1 : ℝ)) (2, 0, 1) = 498 := by
    rw [distPt_same_y]; norm_num
  have d53 : distPt ((500 : ℝ), (0 : ℝ), (1 : ℝ)) (1000, 0, 1) = 500 := by
    rw [distPt_same_y]; norm_num
  have d91 : distPt ((1000 : ℝ), (0 : ℝ), (1 : ℝ)) (1, 0, 1) = 999 := by
    rw [distPt_same_y]; norm_num
  have d92 : distPt ((1000 : ℝ), (0 : ℝ), (1 : ℝ)) (2, 0, 1) = 998 := by
    rw [distPt_same_y]; norm_num
  have d93 : distPt ((1000 : ℝ), (0 : ℝ), (1 : ℝ)) (1000, 0, 1) = 0 := by
    rw [distPt_same_y]; norm_num
  have hbm0 : bestMatch [((1 : ℝ), (0 : ℝ), (1 : ℝ)), (2, 0, 1), (1000, 0, 1)] []
      ((0 : ℝ), (0 : ℝ), (1 : ℝ)) = some 0 := by
    rw [bestMatch, henum]
    norm_num [List.foldl_cons, List.foldl_nil, bmStep, d01, d02, d03, maxJump,
      WithTop.coe_lt_top, WithTop.coe_lt_coe]
  have hbm1 : bestMatch [((1 : ℝ), (0 : ℝ), (1 : ℝ)), (2, 0, 1), (1000, 0, 1)] [0]
      ((500 : ℝ), (0 : ℝ), (1 : ℝ)) = none := by
    rw [bestMatch, henum]
    norm_num [List.foldl_cons, List.foldl_nil, bmStep, d51, d52, d53, maxJump,
      WithTop.coe_lt_top, WithTop.coe_lt_coe]
  have hbm2 : bestMatch [((1 : ℝ), (0 : ℝ), (1 : ℝ)), (2, 0, 1), (1000, 0, 1)] [0]
      ((1000 : ℝ), (0 : ℝ), (1 : ℝ)) = some 2 := by
    rw [bestMatch, henum]
    norm_num [List.foldl_cons, List.foldl_nil, bmStep, d91, d92, d93, maxJump,
      WithTop.coe_lt_top, WithTop.coe_lt_coe]
  rw [proximityAssign]
  rw [show ([((0 : ℝ), (0 : ℝ), (1 : ℝ)), (500, 0, 1), (1000, 0, 1)] : List Pt).enum =
    [(0, ((0 : ℝ), (0 : ℝ), (1 : ℝ))), (1, (500, 0, 1)), (2, (1000, 0, 1))] from rfl]
  simp only [List.foldl_cons, List.foldl_nil, paStep, List.map_nil, List.map_cons, hbm0,
    hbm1, hbm2, List.nil_append, List.cons_append, List.append_nil]

/-- Full run of `_assign_led_ids_robust` on the counterexample frame. -/
theorem assignLedIds_cex :
    (assignLedIds ⟨some [((0 : ℝ), (0 : ℝ), (1 : ℝ)), (500, 0, 1), (1000, 0, 1)], fun _ => []⟩
      [((1 : ℝ), (0 : ℝ), (1 : ℝ)), (2, 0, 1), (1000, 0, 1)]).2 =
    ([some ((1 : ℝ), (0 : ℝ), (1 : ℝ)), some (2, 0, 1), some (1000, 0, 1)],
      [some 0, some 1, some 2]) := by
  have hsort : sortByX [((1 : ℝ), (0 : ℝ), (1 : ℝ)), (2, 0, 1), (1000, 0, 1)] =
      [((1 : ℝ), (0 : ℝ), (1 : ℝ)), (2, 0, 1), (1000, 0, 1)] := by
    norm_num [sortByX, List.insertionSort, List.orderedInsert]
  simp only [assignLedIds, hsort]
  rw [if_neg (by norm_num)]
  simp only [proximityAssign_cex]
  norm_num [List.foldl_cons, List.foldl_nil, List.filter_cons, List.filter_nil,
    List.range_succ]
  rw [if_neg (fun h => Option.noConfusion h), if_neg (fun h => Option.noConfusion h)]
  norm_num [List.foldl_cons, List.foldl_nil]
  exact ⟨rfl, rfl⟩

/-- Proximity assignment of the identity-stability frame of spec
property 4: previous positions `(100,100), (400,100), (700,100)`,
current detections `(110,95), (400,100), (700,100)`.  Every slot keeps
its id; in particular slot 0 claims the moved candidate `(110,95)`
(distance `√125 < 150`). -/
theorem proximityAssign_keep :
    proximityAssign [((100 : ℝ), (100 : ℝ), (1 : ℝ)), (400, 100, 1), (700, 100, 1)]
      [((110 : ℝ), (95 : ℝ), (1 : ℝ)), (400, 100, 1), (700, 100, 1)] =
      [(0, 0), (1, 1), (2, 2)] := by
  have henum : ([((110 : ℝ), (95 : ℝ), (1 : ℝ)), (400, 100, 1), (700, 100, 1)] : List Pt).enum =
      [(0, ((110 : ℝ), (95 : ℝ), (1 : ℝ))), (1, (400, 100, 1)), (2, (700, 100, 1))] := rfl
  have hd00n : ¬ (maxJump < distPt ((100 : ℝ), (100 : ℝ), (1 : ℝ)) (110, 95, 1)) := by
    rw [show distPt ((100 : ℝ), (100 : ℝ), (1 : ℝ)) (110, 95, 1) = Real.sqrt 125 by
      simp only [distPt]
      norm_num]
    rw [maxJump]
    exact not_lt.mpr (sqrt_le_of_sq (by norm_num) (by norm_num))
  have hf01 : maxJump < distPt ((100 : ℝ), (100 : ℝ), (1 : ℝ)) (400, 100, 1) := by
    rw [distPt_same_y]
    norm_num [maxJump]
  have hf02 : maxJump < distPt ((100 : ℝ), (100 : ℝ), (1 : ℝ)) (700, 100, 1) := by
    rw [distPt_same_y]
    norm_num [maxJump]
  have hd11n : ¬ (maxJump < distPt ((400 : ℝ), (100 : ℝ), (1 : ℝ)) (400, 100, 1)) := by
    rw [distPt_same_y]
    norm_num [maxJump]
  have hf12 : maxJump < distPt ((400 : ℝ), (100 : ℝ), (1 : ℝ)) (700, 100, 1) := by
    rw [distPt_same_y]
    norm_num [maxJump]
  have hd22n : ¬ (maxJump < distPt ((700 : ℝ), (100 : ℝ), (1 : ℝ)) (700, 100, 1)) := by
    rw [distPt_same_y]
    norm_num [maxJump]
  have hbm0 : bestMatch [((110 : ℝ), (95 : ℝ), (1 : ℝ)), (400, 100, 1), (700, 100, 1)] []
      ((100 : ℝ), (100 : ℝ), (1 : ℝ)) = some 0 := by
    rw [bestMatch, henum]
    norm_num [List.foldl_cons, List.foldl_nil, bmStep, hd00n, hf01, hf02,
      WithTop.coe_lt_top]
  have hbm1 : bestMatch [((110 : ℝ), (95 : ℝ), (1 : ℝ)), (400, 100, 1), (700, 100, 1)] [0]
      ((400 : ℝ), (100 : ℝ), (1 : ℝ)) = some 1 := by
    rw [bestMatch, henum]
    norm_num [List.foldl_cons, List.foldl_nil, bmStep, hd11n, hf12, WithTop.coe_lt_top]
  have hbm2 : bestMatch [((110 : ℝ), (95 : ℝ), (1 : ℝ)), (400, 100, 1), (700, 100, 1)] [0, 1]
      ((700 : ℝ), (100 : ℝ), (1 : ℝ)) = some 2 := by
    rw [bestMatch, henum]
    norm_num [List.foldl_cons, List.foldl_nil, bmStep, hd22n, WithTop.coe_lt_top]
  rw [proximityAssign]
  rw [show ([((100 : ℝ), (100 : ℝ), (1 : ℝ)), (400, 100, 1), (700, 100, 1)] : List Pt).enum =
    [(0, ((100 : ℝ), (100 : ℝ), (1 : ℝ))), (1, (400, 100, 1)), (2, (700, 100, 1))] from rfl]
  simp only [List.foldl_cons, List.foldl_nil, paStep, List.map_nil, List.map_cons, hbm0,
    hbm1, hbm2, List.nil_append, List.cons_append, List.append_nil]

/-- Full run of `_assign_led_ids_robust` on the identity-stability frame:
every slot keeps its id, slot 0 on the moved candidate. -/
theorem assignLedIds_keep :
    (assignLedIds
      ⟨some [((100 : ℝ), (100 : ℝ), (1 : ℝ)), (400, 100, 1), (700, 100, 1)], fun _ => []⟩
      [((110 : ℝ), (95 : ℝ), (1 : ℝ)), (400, 100, 1), (700, 100, 1)]).2 =
    ([some ((110 : ℝ), (95 : ℝ), (1 : ℝ)), some (400, 100, 1), some (700, 100, 1)],
      [some 0, some 1, some 2]) := by
  have hsort : sortByX [((110 : ℝ), (95 : ℝ), (1 : ℝ)), (400, 100, 1), (700, 100, 1)] =
      [((110 : ℝ), (95 : ℝ), (1 : ℝ)), (400, 100, 1), (700, 100, 1)] := by
    norm_num [sortByX, List.insertionSort, List.orderedInsert]
  simp only [assignLedIds, hsort]
  rw [if_neg (by norm_num)]
  simp only [proximityAssign_keep]
  norm_num [List.foldl_cons, List.foldl_nil, List.filter_cons, List.filter_nil,
    List.range_succ]
  exact ⟨rfl, rfl⟩

/-! ### C5: identity tracking by bounded proximity -/

/-- C5 counterexample: with previous positions `(0,0), (500,0), (1000,0)`
and current detections `(1,0), (2,0), (1000,0)`, the returned id array is
`[0, 1, 2]`: label 1 — previously at `(500,0)`, farther than the maximum
jump from `(2,0)` — is reassigned to the new physical point `(2,0)` even
though the previous-frame point `(0,0)` lies within the maximum-jump
distance of `(2,0)` (slot 0 claimed the nearer `(1,0)` first).  This
refutes the claim sentence "an identity's label is reassigned to a new
physical point only when no previous-frame point lies within the
maximum-jump distance" as literally stated. -/
theorem identity_reassign_within_jump_cex :
    (assignLedIds ⟨some [((0 : ℝ), (0 : ℝ), (1 : ℝ)), (500, 0, 1), (1000, 0, 1)], fun _ => []⟩
      [((1 : ℝ), (0 : ℝ), (1 : ℝ)), (2, 0, 1), (1000, 0, 1)]).2.2 =
      [some 0, some 1, some 2] ∧
    (assignLedIds ⟨some [((0 : ℝ), (0 : ℝ), (1 : ℝ)), (500, 0, 1), (1000, 0, 1)], fun _ => []⟩
      [((1 : ℝ), (0 : ℝ), (1 : ℝ)), (2, 0, 1), (1000, 0, 1)]).2.1.getD 1 none =
      some ((2 : ℝ), (0 : ℝ), (1 : ℝ)) ∧
    distPt ((0 : ℝ), (0 : ℝ), (1 : ℝ)) ((2 : ℝ), (0 : ℝ), (1 : ℝ)) ≤ maxJump ∧
    maxJump < distPt ((500 : ℝ), (0 : ℝ), (1 : ℝ)) ((2 : ℝ), (0 : ℝ), (1 : ℝ)) := by
  have hc := assignLedIds_cex
  refine ⟨congrArg Prod.snd hc, ?_, ?_, ?_⟩
  · rw [congrArg Prod.fst hc]
    rfl
  · rw [distPt_same_y]
    norm_num [maxJump]
  · rw [distPt_same_y]
    norm_num [maxJump]

/-- C5 amended: (i) every pair matched by the proximity phase joins a
slot and a detection within the maximum-jump distance (150 px); (ii) a
candidate farther than the maximum jump from every previous position is
never matched to any slot by proximity; (iii) an identity's label is
re-seeded to a new point only when every current point within the
maximum-jump distance of that slot's last position has been claimed by
some slot — a previous-frame point of a different slot may still lie
within the maximum jump of the newly labelled point; (iv) the concrete
slot with last position `(100,100)` and candidate `(110,95)` (distance
`√125 < 150`) keeps id 0. -/
theorem identity_tracker_amended :
    (∀ lastPos dets : List Pt, ∀ oe ∈ proximityAssign lastPos dets,
      ∃ p q, (oe.1, p) ∈ lastPos.enum ∧ (oe.2, q) ∈ dets.enum ∧ distPt p q ≤ maxJump) ∧
    (∀ (lastPos dets : List Pt) (n : ℕ) (q : Pt), (n, q) ∈ dets.enum →
      (∀ p ∈ lastPos, maxJump < distPt p q) →
      ∀ o : ℕ, (o, n) ∉ proximityAssign lastPos dets) ∧
    (∀ (lastPos dets : List Pt) (o : ℕ) (p : Pt), (o, p) ∈ lastPos.enum →
      o ∉ (proximityAssign lastPos dets).map Prod.fst →
      ∀ np ∈ dets.enum, distPt p np.2 ≤ maxJump →
        np.1 ∈ (proximityAssign lastPos dets).map Prod.snd) ∧
    (assignLedIds
      ⟨some [((100 : ℝ), (100 : ℝ), (1 : ℝ)), (400, 100, 1), (700, 100, 1)], fun _ => []⟩
      [((110 : ℝ), (95 : ℝ), (1 : ℝ)), (400, 100, 1), (700, 100, 1)]).2.2 =
      [some 0, some 1, some 2] := by
  refine ⟨?_, ?_, ?_, congrArg Prod.snd assignLedIds_keep⟩
  · intro lastPos dets oe hoe
    exact (proximityAssign_spec lastPos dets).2.2 oe hoe
  · intro lastPos dets n q hq hfar o ho
    obtain ⟨p, q', hp, hq', hd⟩ := (proximityAssign_spec lastPos dets).2.2 (o, n) ho
    rw [enum_functional hq' hq] at hd
    exact absurd hd (not_le.mpr (hfar p (mem_enum_mem hp)))
  · intro lastPos dets o p hop hnk np hnp hd
    exact paFold_unmatched dets lastPos.enum [] (o, p) hop hnk np hnp hd

/-- Witness: slot 0 of the keep-id frame is proximity-matched, within the
maximum jump. -/
theorem identity_tracker_amended_w :
    ∃ p q, ((0 : ℕ), p) ∈
        ([((100 : ℝ), (100 : ℝ), (1 : ℝ)), (400, 100, 1), (700, 100, 1)] : List Pt).enum ∧
      ((0 : ℕ), q) ∈
        ([((110 : ℝ), (95 : ℝ), (1 : ℝ)), (400, 100, 1), (700, 100, 1)] : List Pt).enum ∧
      distPt p q ≤ maxJump := by
  apply identity_tracker_amended.1
    [((100 : ℝ), (100 : ℝ), (1 : ℝ)), (400, 100, 1), (700, 100, 1)]
    [((110 : ℝ), (95 : ℝ), (1 : ℝ)), (400, 100, 1), (700, 100, 1)] (0, 0)
  rw [proximityAssign_keep]
  simp
